import Mathlib

/-!
Verification of ubuntu-manifest-archive-diff against its natural-language
specification.

The development is a shallow embedding of src/ubuntu_manifest_archive_diff/cli.py.
Pure string processing (manifest parsing, name normalization, output
serialization) is translated directly.  Debian version comparison, performed in
the source by debian.debian_support.version_compare, is translated from the
reference pure-Python implementation of that library (class NativeVersion):
version strings are validated against the pattern
  optional epoch of digits followed by a colon,
  an upstream part over the characters A-Za-z0-9.+:~- (shortest match),
  an optional revision after the last dash over A-Za-z0-9+.~;
an invalid version string raises ValueError, modelled as Option.none.
Remote services (Launchpad archive queries, the snap-store refresh endpoint)
are modelled as explicit oracle structures; each call the program makes is
recorded as an Event so that sequencing claims (which queries happen, in which
order, and when the output file is written) are provable.  A Launchpad call
that raises is an oracle answer of Except.error; the response of the
snap-store endpoint is modelled by its ok flag and the list of revision
numbers in its results field.
-/

set_option maxHeartbeats 1000000

/-! ## Character classes (ASCII, as used by the Python regexes) -/

/-- ASCII digit 0-9, the semantics of the regex class backslash-d on the
version strings involved. -/
def isDig (c : Char) : Bool := 48 ≤ c.toNat && c.toNat ≤ 57

/-- ASCII letter, the regex class A-Za-z. -/
def isAlphaChar (c : Char) : Bool :=
  (65 ≤ c.toNat && c.toNat ≤ 90) || (97 ≤ c.toNat && c.toNat ≤ 122)

/-- Characters allowed in the upstream-version part of a Debian version
(regex class A-Za-z0-9.+:~- of debian_support.BaseVersion). -/
def upstreamChar (c : Char) : Bool :=
  isAlphaChar c || isDig c || c = '.' || c = '+' || c = ':' || c = '~' || c = '-'

/-- Characters allowed in the debian-revision part of a Debian version
(regex class A-Za-z0-9+.~ of debian_support.BaseVersion). -/
def revisionChar (c : Char) : Bool :=
  isAlphaChar c || isDig c || c = '+' || c = '.' || c = '~'

/-- Numeric value of a digit string, the semantics of Python int() on a
run of digits. -/
def digitsToNat (l : List Char) : Nat :=
  l.foldl (fun n c => n * 10 + (c.toNat - 48)) 0

/-! ## Debian version comparison (debian_support.NativeVersion) -/

/-- Three-way integer comparison, the shape of the comparisons in
NativeVersion. -/
def intCmp (a b : Int) : Int := if a < b then -1 else if b < a then 1 else 0

/-- Character weight used by NativeVersion._order: a tilde sorts below
everything (-1), a digit char is its value plus one, a letter is its code
point, anything else is its code point plus 256. -/
def charOrder (c : Char) : Int :=
  if c = '~' then -1
  else if isDig c then ((c.toNat : Int) - 48) + 1
  else if isAlphaChar c then (c.toNat : Int)
  else (c.toNat : Int) + 256

/-- Tail of the padded lexicographic comparison loop when the left list is
exhausted: remaining right elements are compared against the pad element. -/
def lexPadR (f : α → α → Int) (e : α) : List α → Int
  | [] => 0
  | b :: bs => if f e b = 0 then lexPadR f e bs else f e b

/-- Padded lexicographic comparison: the while-loop of NativeVersion that
pops one element from each list per iteration, substituting the pad element
for an exhausted list, and returns the first nonzero comparison. -/
def lexPad (f : α → α → Int) (e : α) : List α → List α → Int
  | [], bs => lexPadR f e bs
  | a :: as, [] => if f a e = 0 then lexPad f e as [] else f a e
  | a :: as, b :: bs => if f a b = 0 then lexPad f e as bs else f a b

/-- NativeVersion._version_cmp_string: map both strings through the character
weight and compare lexicographically, padding an exhausted side with 0. -/
def versionCmpString (va vb : List Char) : Int :=
  lexPad intCmp 0 (va.map charOrder) (vb.map charOrder)

/-- Maximal runs of digits or non-digits, the semantics of
re.findall applied with the all-digits-or-not pattern of NativeVersion. -/
def splitRuns : List Char → List (List Char)
  | [] => []
  | [c] => [[c]]
  | c :: d :: cs =>
    if isDig c = isDig d then
      match splitRuns (d :: cs) with
      | (t :: r) :: rs => (c :: t :: r) :: rs
      | other => [c] :: other
    else [c] :: splitRuns (d :: cs)

/-- Python str.isdigit: nonempty and all digits. -/
def strIsDigit (l : List Char) : Bool := !l.isEmpty && l.all isDig

/-- One step of NativeVersion._version_cmp_part: two tokens are compared
numerically when both are digit runs, and by the character-weight string
comparison otherwise. -/
def tokenCmp (a b : List Char) : Int :=
  if strIsDigit a && strIsDigit b then intCmp (digitsToNat a) (digitsToNat b)
  else versionCmpString a b

/-- NativeVersion._version_cmp_part: split both strings into digit and
non-digit runs and compare them pairwise, padding an exhausted side with
the token "0". -/
def versionCmpPart (va vb : List Char) : Int :=
  lexPad tokenCmp ['0'] (splitRuns va) (splitRuns vb)

/-- Split a character list at its last dash, returning the parts before and
after it, or none when there is no dash. -/
def lastDashSplit : List Char → Option (List Char × List Char)
  | [] => none
  | c :: cs =>
    match lastDashSplit cs with
    | some (u, r) => some (c :: u, r)
    | none => if c = '-' then some ([], cs) else none

/-- Parsed Debian version: numeric epoch (0 when absent), upstream part,
and optional revision (compared as "0" when absent, following
NativeVersion which substitutes "0" at comparison time). -/
structure DebVersion where
  epoch : Nat
  upstream : List Char
  revision : Option (List Char)
deriving DecidableEq, Repr

/-- Match the part of a version after the epoch against the anchored pattern
upstream-version optionally followed by a dash and a revision.  The revision
character class excludes the dash, so the only possible split is at the last
dash; when that split is not well formed the whole string must be upstream
characters (this reproduces the backtracking of the non-greedy upstream
group in BaseVersion's validation regex). -/
def splitUpRev (l : List Char) : Option (List Char × Option (List Char)) :=
  if l.isEmpty then none
  else
    match lastDashSplit l with
    | some (u, r) =>
      if !u.isEmpty && u.all upstreamChar && !r.isEmpty && r.all revisionChar then
        some (u, some r)
      else if l.all upstreamChar then some (l, none) else none
    | none => if l.all upstreamChar then some (l, none) else none

/-- Parse a version string against BaseVersion's validation regex.  The
greedy optional epoch group matches the maximal leading digit run when it is
followed by a colon and the remainder is well formed; otherwise the engine
backtracks to an absent epoch.  Returns none when the string is invalid, the
shallow embedding of the ValueError raised by debian_support. -/
def parseVersion (s : String) : Option DebVersion :=
  let l := s.data
  let ds := l.takeWhile isDig
  match ds, l.drop ds.length with
  | _ :: _, ':' :: rest =>
    match splitUpRev rest with
    | some (u, r) => some ⟨digitsToNat ds, u, r⟩
    | none =>
      match splitUpRev l with
      | some (u, r) => some ⟨0, u, r⟩
      | none => none
  | _, _ =>
    match splitUpRev l with
    | some (u, r) => some ⟨0, u, r⟩
    | none => none

/-- NativeVersion._compare: epochs numerically, then the upstream parts,
then the revisions with "0" substituted for an absent revision. -/
def cmpDebVersion (a b : DebVersion) : Int :=
  if a.epoch < b.epoch then -1
  else if b.epoch < a.epoch then 1
  else if versionCmpPart a.upstream b.upstream ≠ 0 then versionCmpPart a.upstream b.upstream
  else versionCmpPart (a.revision.getD ['0']) (b.revision.getD ['0'])

/-- debian_support.version_compare: parse both strings (ValueError, i.e.
none, when either is invalid) and compare. -/
def version_compare (a b : String) : Option Int := do
  let va ← parseVersion a
  let vb ← parseVersion b
  pure (cmpDebVersion va vb)

/-- Validity of a version string for debian_support. -/
def validVer (s : String) : Prop := (parseVersion s).isSome = true

instance (s : String) : Decidable (validVer s) := by
  unfold validVer; infer_instance

/-! ## The max-version fold of get_archive_versions (cli.py lines 176-179) -/

/-- One iteration of the loop: compare the candidate against the current
maximum and keep the larger; none models the ValueError escaping the loop
when a version string is invalid. -/
def maxVersionStep (m v : String) : Option String :=
  (version_compare v m).map fun c => if 0 < c then v else m

/-- The reduction in get_archive_versions: start from the sentinel "0.0.0"
and replace it whenever a candidate compares strictly greater. -/
def maxVersion (l : List String) : Option String :=
  l.foldlM maxVersionStep "0.0.0"

/-! ## Python string primitives used by cli.py -/

/-- Test whether p is a prefix of l (character-wise). -/
def isPfx : List Char → List Char → Bool
  | [], _ => true
  | _ :: _, [] => false
  | p :: ps, c :: cs => p = c && isPfx ps cs

/-- Python substring containment, the operator in of the condition
"snap:" in line. -/
def containsSub (pat : List Char) : List Char → Bool
  | [] => pat.isEmpty
  | c :: cs => isPfx pat (c :: cs) || containsSub pat cs

/-- Scan of Python str.replace(pat, "") with a nonempty pattern: at each
position, if the pattern matches it is removed and scanning resumes after
it (the skip counter counts pattern characters still to be discarded),
otherwise the character is kept.  Matches are found left to right and do
not overlap, and removed text is not rescanned. -/
def pyRemoveAux (pat : List Char) : List Char → Nat → List Char
  | [], _ => []
  | _ :: cs, skip + 1 => pyRemoveAux pat cs skip
  | c :: cs, 0 =>
    if isPfx pat (c :: cs) then pyRemoveAux pat cs (pat.length - 1)
    else c :: pyRemoveAux pat cs 0

/-- Python s.replace(pat, "") (with an empty pattern the string is
unchanged, as in Python when the replacement is empty). -/
def pyReplace (s pat : String) : String :=
  if pat.data.isEmpty then s else ⟨pyRemoveAux pat.data s.data 0⟩

/-- Python whitespace for str.split and str.strip. -/
def pyIsSpace (c : Char) : Bool :=
  c = ' ' || c = '\t' || c = '\n' || c = '\x0b' || c = '\x0c' || c = '\r'

/-- Python line.strip().split(): split on runs of whitespace, no empty
fields (leading and trailing whitespace contribute nothing). -/
def pySplitChars : List Char → List (List Char)
  | [] => []
  | c :: cs =>
    if pyIsSpace c then pySplitChars cs
    else
      match cs with
      | [] => [[c]]
      | d :: _ =>
        if pyIsSpace d then [c] :: pySplitChars cs
        else
          match pySplitChars cs with
          | t :: ts => (c :: t) :: ts
          | [] => [[c]]

/-- Python line.strip().split() on strings. -/
def pySplit (s : String) : List String := (pySplitChars s.data).map fun l => ⟨l⟩

/-- Python s.split(sep) for a single-character separator (empty fields are
kept; the empty string yields one empty field). -/
def splitOnChar (sep : Char) : List Char → List (List Char)
  | [] => [[]]
  | c :: cs =>
    match splitOnChar sep cs with
    | p :: ps => if c = sep then [] :: p :: ps else (c :: p) :: ps
    | [] => [[]]

/-- Python ppa.split('/'). -/
def pySplitSlash (s : String) : List String := (splitOnChar '/' s.data).map fun l => ⟨l⟩

/-! ## Oracles for the remote services and the event trace -/

/-- Archive being queried: the Ubuntu main archive, or a PPA looked up by
owner and name (launchpad.people[owner].getPPAByName(name)). -/
inductive ArchiveTarget
  | main
  | ppa (owner name : String)
deriving DecidableEq, Repr

/-- Parameters of one archive.getPublishedBinaries call, with the fields
_get_binary_packages passes: exact_match, binary_name, the distro arch
series (kept as the series and architecture strings that produce it),
pocket, order_by_date and status. -/
structure BinQuery where
  target : ArchiveTarget
  exact_match : Bool
  binary_name : String
  series : String
  arch : String
  pocket : String
  order_by_date : Bool
  status : String
deriving DecidableEq, Repr

/-- Launchpad oracle: the answer to a getPublishedBinaries call is the list
of binary_package_version strings of the returned publications, or an
error when the call raises.  Navigation of the Launchpad object graph
(distribution, series, arch series, PPA lookup) is folded into the answer:
a failure anywhere in the chained lookup surfaces as the error of the
query it was performed for, since the program has no handler anywhere. -/
structure LPWorld where
  getPublishedBinaries : BinQuery → Except String (List String)

/-- Snap store refresh response, reduced to the fields cli.py reads: the
ok flag of the HTTP response and the revision field of each element of
results (the program reads results[0]["snap"]["revision"]). -/
structure SnapResponse where
  ok : Bool
  results : List Int
deriving DecidableEq, Repr

/-- Snap store oracle: response of the refresh endpoint for a POST naming
a snap, a channel and a device architecture. -/
structure SnapWorld where
  refresh : String → String → String → SnapResponse

/-- Observable actions of one run, in order: an archive query, a snap-store
refresh request, or the write of the output manifest file. -/
inductive Event
  | binQuery (q : BinQuery)
  | snapRefresh (name channel arch : String)
  | fileWrite (content : String)
deriving DecidableEq, Repr

/-- Exceptions that can escape the program, by Python exception site:
formatError is the ValueError of unpacking a manifest line, ppaFormatError
the ValueError of unpacking ppa.split('/'), lpError a launchpadlib failure,
versionError the ValueError of debian_support on an invalid version string,
snapIndexError the IndexError of results[0] on an empty results list. -/
inductive RunError
  | formatError
  | ppaFormatError
  | lpError (msg : String)
  | versionError
  | snapIndexError
deriving DecidableEq, Repr

/-! ## _get_snapstore_versions (cli.py lines 20-109) -/

/-- Loop of _get_snapstore_versions: POST one refresh action per snap; on a
non-ok response print and continue with the next snap; on an ok response
take results[0] (IndexError when results is empty, aborting everything)
and record (name, channel, revision). -/
def _get_snapstore_versions (sw : SnapWorld) (snap_package_names : List (String × String)) (architecture : String) :
    List Event × Except RunError (List (String × String × Int)) :=
  match snap_package_names with
  | [] => ([], .ok [])
  | (snap_name, snap_channel) :: rest =>
    if (sw.refresh snap_name snap_channel architecture).ok then
      match (sw.refresh snap_name snap_channel architecture).results with
      | [] => ([Event.snapRefresh snap_name snap_channel architecture], .error .snapIndexError)
      | r :: _ =>
        match _get_snapstore_versions sw rest architecture with
        | (evs, res) =>
          (Event.snapRefresh snap_name snap_channel architecture :: evs,
           res.map fun t => (snap_name, snap_channel, r) :: t)
    else
      match _get_snapstore_versions sw rest architecture with
      | (evs, res) => (Event.snapRefresh snap_name snap_channel architecture :: evs, res)

/-! ## _get_binary_packages and get_archive_versions (cli.py lines 112-182) -/

/-- The fixed pocket list ARCHIVE_POCKETS of cli.py. -/
def ARCHIVE_POCKETS : List String := ["Updates", "Security", "Release"]

/-- _get_binary_packages: one getPublishedBinaries call with exact_match
True, order_by_date True and status "Published". -/
def _get_binary_packages (w : LPWorld) (target : ArchiveTarget) (binary_package_name series arch pocket status : String) :
    Except String (List String) :=
  w.getPublishedBinaries ⟨target, true, binary_package_name, series, arch, pocket, true, status⟩

/-- Name normalization of cli.py line 142:
binary_package_name.replace(":" + architecture, "") removes every
occurrence of the colon-architecture substring. -/
def normalizeName (architecture name : String) : String :=
  pyReplace name (":" ++ architecture)

/-- PPA part of the per-package loop: for each ppa string, unpack
owner/name (ValueError when the split does not give two parts), query the
PPA with pocket "Release", and collect all returned versions in order.  A
raised query error propagates: there is no handler in the source. -/
def ppaCandidates (w : LPWorld) (series arch binName : String) : List String → List Event × Except RunError (List String)
  | [] => ([], .ok [])
  | ppa :: rest =>
    match pySplitSlash ppa with
    | [powner, pname] =>
      let q : BinQuery := ⟨.ppa powner pname, true, binName, series, arch, "Release", true, "Published"⟩
      match w.getPublishedBinaries q with
      | .error e => ([.binQuery q], .error (.lpError e))
      | .ok vs =>
        let (evs, r) := ppaCandidates w series arch binName rest
        (.binQuery q :: evs, r.map fun ws => vs ++ ws)
    | _ => ([], .error .ppaFormatError)

/-- Main-archive part of the per-package loop: query the main archive once
per pocket, collecting all returned versions in order. -/
def pocketCandidates (w : LPWorld) (series arch binName : String) : List String → List Event × Except RunError (List String)
  | [] => ([], .ok [])
  | pocket :: rest =>
    let q : BinQuery := ⟨.main, true, binName, series, arch, pocket, true, "Published"⟩
    match w.getPublishedBinaries q with
    | .error e => ([.binQuery q], .error (.lpError e))
    | .ok vs =>
      let (evs, r) := pocketCandidates w series arch binName rest
      (.binQuery q :: evs, r.map fun ws => vs ++ ws)

/-- Body of the per-package loop of get_archive_versions: strip the
architecture from the name, accumulate candidates from the PPAs then the
three pockets, and reduce them with the max-version fold; the resolved
pair records the normalized name. -/
def resolvePackage (w : LPWorld) (series arch : String) (ppas : List String) (name0 : String) :
    List Event × Except RunError (String × String) :=
  match ppaCandidates w series arch (normalizeName arch name0) ppas with
  | (ev1, .error e) => (ev1, .error e)
  | (ev1, .ok ppaVs) =>
    match pocketCandidates w series arch (normalizeName arch name0) ARCHIVE_POCKETS with
    | (ev2, .error e) => (ev1 ++ ev2, .error e)
    | (ev2, .ok mainVs) =>
      match maxVersion (ppaVs ++ mainVs) with
      | none => (ev1 ++ ev2, .error .versionError)
      | some m => (ev1 ++ ev2, .ok (normalizeName arch name0, m))

/-- get_archive_versions: resolve each package name in order, appending one
(name, max_version) pair per name; any raised error aborts the whole
resolution. -/
def get_archive_versions (w : LPWorld) (series : String) (binary_package_names : List String) (architecture : String) (ppas : List String) :
    List Event × Except RunError (List (String × String)) :=
  match binary_package_names with
  | [] => ([], .ok [])
  | n :: rest =>
    match resolvePackage w series architecture ppas n with
    | (ev1, .error e) => (ev1, .error e)
    | (ev1, .ok p) =>
      match get_archive_versions w series rest architecture ppas with
      | (ev2, r2) => (ev1 ++ ev2, r2.map fun t => p :: t)

/-! ## Manifest parsing and the orchestrator (cli.py lines 247-279) -/

/-- Parse loop of ubuntu_manifest_archive_diff: a line containing "snap:"
is split into exactly three fields, every occurrence of "snap:" is removed
from the first, and (name, channel) is appended to the snap list; any
other line is split into exactly two fields and the first is appended to
the binary list; a wrong field count raises ValueError. -/
def parseManifest : List String → Except RunError (List String × List (String × String))
  | [] => .ok ([], [])
  | line :: rest =>
    if containsSub "snap:".data line.data then
      match pySplit line with
      | [a, b, _] =>
        (parseManifest rest).map fun p => (p.1, (pyReplace a "snap:", b) :: p.2)
      | _ => .error .formatError
    else
      match pySplit line with
      | [a, _] => (parseManifest rest).map fun p => (a :: p.1, p.2)
      | _ => .error .formatError

/-- Output serialization of cli.py lines 274-278: one write per resolved
binary as name, tab, version, newline, then one write per resolved snap as
snap: prefix, name, tab, channel, tab, revision, newline. -/
def writeArchiveManifest (bins : List (String × String)) (snaps : List (String × String × Int)) : String :=
  let s1 := bins.foldl (fun acc p => acc ++ p.1 ++ "\t" ++ p.2 ++ "\n") ""
  snaps.foldl (fun acc p => acc ++ "snap:" ++ p.1 ++ "\t" ++ p.2.1 ++ "\t" ++ toString p.2.2 ++ "\n") s1

/-- The command body ubuntu_manifest_archive_diff: parse the manifest,
resolve archive versions, resolve snap-store versions, then write the
output file; each stage runs only if every earlier stage finished without
raising, and the result of the run is the content written (or the escaped
exception). -/
def runPipeline (w : LPWorld) (sw : SnapWorld) (series architecture : String) (ppas : List String) (manifestLines : List String) :
    List Event × Except RunError String :=
  match parseManifest manifestLines with
  | .error e => ([], .error e)
  | .ok (binary_package_names, snap_package_names) =>
    match get_archive_versions w series binary_package_names architecture ppas with
    | (ev1, .error e) => (ev1, .error e)
    | (ev1, .ok manifest_archive_versions) =>
      match _get_snapstore_versions sw snap_package_names architecture with
      | (ev2, .error e) => (ev1 ++ ev2, .error e)
      | (ev2, .ok manifest_snapstore_versions) =>
        (ev1 ++ ev2 ++
           [.fileWrite (writeArchiveManifest manifest_archive_versions manifest_snapstore_versions)],
         .ok (writeArchiveManifest manifest_archive_versions manifest_snapstore_versions))

/-! ## Claim-shaped and spec-modelled auxiliary definitions -/

/-- Concatenation of a list of strings, used to state the writer's output
as one line per resolved entry. -/
def concatAll : List String → String
  | [] => ""
  | s :: ss => s ++ concatAll ss

/-- The output line for one resolved binary: name, tab, max version,
newline. -/
def fmtBinaryLine (p : String × String) : String := p.1 ++ "\t" ++ p.2 ++ "\n"

/-- The output line for one resolved snap: snap: prefix, name, tab,
channel, tab, revision, newline. -/
def fmtSnapLine (p : String × String × Int) : String :=
  "snap:" ++ p.1 ++ "\t" ++ p.2.1 ++ "\t" ++ toString p.2.2 ++ "\n"

/-- A parsed manifest entry: a binary package reference or a snap
reference. -/
inductive ManifestEntry
  | binary (name : String)
  | snap (name channel : String)
deriving DecidableEq, Repr

/-- Per-line parse in the shape of the specification: a line containing
"snap:" must split into exactly three whitespace fields and yields a snap
reference whose name has every occurrence of "snap:" removed; any other
line must split into exactly two fields and yields a binary reference. -/
def parseLineSpec (line : String) : Except RunError ManifestEntry :=
  if containsSub "snap:".data line.data then
    match pySplit line with
    | [a, b, _] => .ok (.snap (pyReplace a "snap:") b)
    | _ => .error .formatError
  else
    match pySplit line with
    | [a, _] => .ok (.binary a)
    | _ => .error .formatError

/-- Sequential application of the per-line parse: the entry list of the
manifest in input order, or the first parse failure. -/
def parseEntries : List String → Except RunError (List ManifestEntry)
  | [] => .ok []
  | line :: rest =>
    match parseLineSpec line with
    | .error e => .error e
    | .ok entry => (parseEntries rest).map fun es => entry :: es

/-- Partition a list of manifest entries into the binary-name list and the
snap (name, channel) list, both in input order. -/
def entriesToLists : List ManifestEntry → List String × List (String × String)
  | [] => ([], [])
  | .binary n :: rest =>
    let p := entriesToLists rest
    (n :: p.1, p.2)
  | .snap n c :: rest =>
    let p := entriesToLists rest
    (p.1, (n, c) :: p.2)

/-- Modelled from the spec: stripping the "snap:" prefix from a field, the
transformation the specification describes for snap names (the source
instead removes every occurrence). -/
def specStripSnapPrefix (s : String) : String :=
  if isPfx "snap:".data s.data then ⟨s.data.drop 5⟩ else s

/-- Test whether p is a suffix of l (character-wise). -/
def isSfx (p l : List Char) : Bool := isPfx p.reverse l.reverse

/-- Modelled from the spec: normalization that strips only a trailing
colon-architecture suffix from a package name, the transformation the
specification describes (the source instead removes every occurrence of
the colon-architecture substring). -/
def specStripArchSuffix (architecture name : String) : String :=
  let pat := ":" ++ architecture
  if isSfx pat.data name.data then ⟨name.data.take (name.data.length - pat.data.length)⟩
  else name

/-- The archive target a PPA string denotes after owner/name unpacking
(only meaningful when the string splits into exactly two parts). -/
def ppaTargetOf (ppa : String) : ArchiveTarget :=
  match pySplitSlash ppa with
  | [powner, pname] => .ppa powner pname
  | _ => .ppa "" ""

/-- The query issued against a PPA for one (already normalized) package
name: exact match, pocket "Release", status "Published", ordered by
date. -/
def ppaQueryOf (series arch name ppa : String) : BinQuery :=
  ⟨ppaTargetOf ppa, true, name, series, arch, "Release", true, "Published"⟩

/-- The query issued against the main archive for one (already normalized)
package name and one pocket: exact match, status "Published", ordered by
date. -/
def mainQueryOf (series arch name pocket : String) : BinQuery :=
  ⟨.main, true, name, series, arch, pocket, true, "Published"⟩

/-- The full query plan for one manifest name: each supplementary
repository in caller-given order under pocket "Release", then the main
archive once per pocket in the fixed order Updates, Security, Release;
all queries use the architecture-stripped name. -/
def packagePlan (series arch : String) (ppas : List String) (name0 : String) : List BinQuery :=
  let n := normalizeName arch name0
  ppas.map (ppaQueryOf series arch n) ++ ARCHIVE_POCKETS.map (mainQueryOf series arch n)

/-- Candidate versions accumulated for one manifest name when every query
answers (answer function f): the concatenation of the answers in query-plan
order. -/
def packageCandidates (f : BinQuery → List String) (series arch : String) (ppas : List String) (name0 : String) : List String :=
  (packagePlan series arch ppas name0).flatMap f

/-- Well-formedness of one PPA option string: it unpacks into exactly an
owner and a name. -/
def ppaWf (ppa : String) : Prop := ∃ o n, pySplitSlash ppa = [o, n]

/-- Debian less-or-equal on version strings as the program computes it:
the comparison succeeds and is not positive. -/
def vle (a b : String) : Prop := ∃ c, version_compare a b = some c ∧ c ≤ 0

/-- Homogeneous token: nonempty and either all digits or all non-digits;
every token produced by splitRuns has this shape. -/
def homTok (l : List Char) : Prop :=
  l ≠ [] ∧ ((∀ c ∈ l, isDig c = true) ∨ (∀ c ∈ l, isDig c = false))

/-! ## Concrete oracles used in counterexamples and witnesses -/

/-- Launchpad oracle whose every query succeeds with no publications. -/
def wOkEmpty : LPWorld := ⟨fun _ => .ok []⟩

/-- Launchpad oracle where every PPA query raises and every main-archive
query succeeds with no publications. -/
def wPpaErr : LPWorld :=
  ⟨fun q =>
    match q.target with
    | .main => .ok []
    | .ppa _ _ => .error "503 Service Unavailable"⟩

/-- Launchpad oracle where the main archive publishes version 1.0-1 of
everything and PPAs return nothing. -/
def wMain10 : LPWorld :=
  ⟨fun q =>
    match q.target with
    | .main => .ok ["1.0-1"]
    | .ppa _ _ => .ok []⟩

/-- Launchpad oracle answering every query with version 1.0-1. -/
def wAll10 : LPWorld := ⟨fun _ => .ok ["1.0-1"]⟩

/-- Snap-store oracle answering ok with an empty results list. -/
def swOkEmpty : SnapWorld := ⟨fun _ _ _ => ⟨true, []⟩⟩

/-- Snap-store oracle answering with a non-success response. -/
def swFail : SnapWorld := ⟨fun _ _ _ => ⟨false, []⟩⟩

/-- Snap-store oracle answering ok with revision 1234. -/
def swRev : SnapWorld := ⟨fun _ _ _ => ⟨true, [1234]⟩⟩

/-- Snap-store oracle failing for the snap named aaa and answering
revision 1234 for every other snap. -/
def swMix : SnapWorld :=
  ⟨fun name _ _ => if name = "aaa" then ⟨false, []⟩ else ⟨true, [1234]⟩⟩

/-! ## Laws of the padded lexicographic comparison -/

theorem lexPadR_append_pad {α : Type} (f : α → α → Int) (e : α) (hee : f e e = 0) :
    ∀ bs : List α, lexPadR f e (bs ++ [e]) = lexPadR f e bs := by
  intro bs
  induction bs with
  | nil => simp [lexPadR, hee]
  | cons y ys ih => simp only [List.cons_append, lexPadR, List.append_eq]; rw [ih]

theorem lexPad_pad_right {α : Type} (f : α → α → Int) (e : α) (hee : f e e = 0) :
    ∀ a b : List α, lexPad f e a (b ++ [e]) = lexPad f e a b := by
  intro a
  induction a with
  | nil => intro b; simp only [lexPad]; exact lexPadR_append_pad f e hee b
  | cons x xs ih =>
    intro b
    cases b with
    | nil => simp only [List.nil_append, lexPad]
    | cons y ys => simp only [List.cons_append, lexPad, List.append_eq]; rw [ih]

theorem lexPad_pad_left {α : Type} (f : α → α → Int) (e : α) (hee : f e e = 0) :
    ∀ a b : List α, lexPad f e (a ++ [e]) b = lexPad f e a b := by
  intro a
  induction a with
  | nil =>
    intro b
    cases b with
    | nil => simp [lexPad, lexPadR, hee]
    | cons y ys => simp only [List.nil_append, lexPad, lexPadR]
  | cons x xs ih =>
    intro b
    cases b with
    | nil => simp only [List.cons_append, lexPad, List.append_eq]; rw [ih]
    | cons y ys => simp only [List.cons_append, lexPad, List.append_eq]; rw [ih]

theorem lexPad_pad_right_rep {α : Type} (f : α → α → Int) (e : α) (hee : f e e = 0) :
    ∀ (k : Nat) (a b : List α), lexPad f e a (b ++ List.replicate k e) = lexPad f e a b := by
  intro k
  induction k with
  | zero => simp
  | succ n ih =>
    intro a b
    have h1 : b ++ List.replicate (n + 1) e = (b ++ [e]) ++ List.replicate n e := by
      simp [List.replicate_succ]
    rw [h1, ih, lexPad_pad_right f e hee]

theorem lexPad_pad_left_rep {α : Type} (f : α → α → Int) (e : α) (hee : f e e = 0) :
    ∀ (k : Nat) (a b : List α), lexPad f e (a ++ List.replicate k e) b = lexPad f e a b := by
  intro k
  induction k with
  | zero => simp
  | succ n ih =>
    intro a b
    have h1 : a ++ List.replicate (n + 1) e = (a ++ [e]) ++ List.replicate n e := by
      simp [List.replicate_succ]
    rw [h1, ih, lexPad_pad_left f e hee]

theorem lexPad_refl {α : Type} (f : α → α → Int) (e : α) (P : α → Prop)
    (hf0 : ∀ a, P a → f a a = 0) :
    ∀ a : List α, (∀ x ∈ a, P x) → lexPad f e a a = 0 := by
  intro a
  induction a with
  | nil => intro _; rfl
  | cons x xs ih =>
    intro h
    have hx : f x x = 0 := hf0 x (h x (by simp))
    simp only [lexPad, hx, if_pos]
    exact ih fun y hy => h y (by simp [hy])

theorem lexPad_antisym {α : Type} (f : α → α → Int) (e : α) (P : α → Prop)
    (hPe : P e) (hfA : ∀ a b, P a → P b → f b a = -(f a b)) :
    ∀ a b : List α, (∀ x ∈ a, P x) → (∀ x ∈ b, P x) →
      lexPad f e b a = -(lexPad f e a b) := by
  intro a
  induction a with
  | nil =>
    intro b _ hb
    induction b with
    | nil => rfl
    | cons y ys ihb =>
      have hy : P y := hb y (by simp)
      have h1 : f y e = -(f e y) := hfA e y hPe hy
      simp only [lexPad, lexPadR]
      by_cases h2 : f e y = 0
      · rw [if_pos h2, if_pos (by rw [h1, h2]; ring)]
        exact ihb fun z hz => hb z (by simp [hz])
      · rw [if_neg h2, if_neg (by rw [h1]; omega), h1]
  | cons x xs ih =>
    intro b ha hb
    have hx : P x := ha x (by simp)
    have ha' : ∀ z ∈ xs, P z := fun z hz => ha z (by simp [hz])
    cases b with
    | nil =>
      have h1 : f e x = -(f x e) := hfA x e hx hPe
      simp only [lexPad, lexPadR]
      by_cases h2 : f x e = 0
      · rw [if_pos h2, if_pos (by rw [h1, h2]; ring)]
        exact ih [] ha' (by simp)
      · rw [if_neg h2, if_neg (by rw [h1]; omega), h1]
    | cons y ys =>
      have hy : P y := hb y (by simp)
      have hb' : ∀ z ∈ ys, P z := fun z hz => hb z (by simp [hz])
      have h1 : f y x = -(f x y) := hfA x y hx hy
      simp only [lexPad]
      by_cases h2 : f x y = 0
      · rw [if_pos h2, if_pos (by rw [h1, h2]; ring)]
        exact ih ys ha' hb'
      · rw [if_neg h2, if_neg (by rw [h1]; omega), h1]

theorem lexPad_eq_subst_len {α : Type} (f : α → α → Int) (e : α) (P : α → Prop)
    (hfE : ∀ a b c, P a → P b → P c → f a b = 0 → f a c = f b c) :
    ∀ a b c : List α, a.length = b.length → b.length = c.length →
      (∀ x ∈ a, P x) → (∀ x ∈ b, P x) → (∀ x ∈ c, P x) →
      lexPad f e a b = 0 → lexPad f e a c = lexPad f e b c := by
  intro a
  induction a with
  | nil =>
    intro b c hab hbc _ _ _ _
    cases b with
    | cons y ys => simp at hab
    | nil => rfl
  | cons x xs ih =>
    intro b c hab hbc ha hb hc h0
    cases b with
    | nil => simp at hab
    | cons y ys =>
      cases c with
      | nil => simp at hbc
      | cons z zs =>
        have hx : P x := ha x (by simp)
        have hy : P y := hb y (by simp)
        have hz : P z := hc z (by simp)
        simp only [lexPad] at h0
        by_cases hxy : f x y = 0
        · rw [if_pos hxy] at h0
          have hxz : f x z = f y z := hfE x y z hx hy hz hxy
          simp only [lexPad, hxz]
          by_cases hyz : f y z = 0
          · rw [if_pos hyz, if_pos hyz]
            exact ih ys zs (by simpa using hab) (by simpa using hbc)
              (fun w hw => ha w (by simp [hw])) (fun w hw => hb w (by simp [hw]))
              (fun w hw => hc w (by simp [hw])) h0
          · rw [if_neg hyz, if_neg hyz]
        · rw [if_neg hxy] at h0; exact absurd h0 hxy

theorem lexPad_lt_trans_len {α : Type} (f : α → α → Int) (e : α) (P : α → Prop)
    (hfE : ∀ a b c, P a → P b → P c → f a b = 0 → f a c = f b c)
    (hfE2 : ∀ a b c, P a → P b → P c → f b c = 0 → f a b = f a c)
    (hfT : ∀ a b c, P a → P b → P c → f a b < 0 → f b c < 0 → f a c < 0) :
    ∀ a b c : List α, a.length = b.length → b.length = c.length →
      (∀ x ∈ a, P x) → (∀ x ∈ b, P x) → (∀ x ∈ c, P x) →
      lexPad f e a b < 0 → lexPad f e b c < 0 → lexPad f e a c < 0 := by
  intro a
  induction a with
  | nil =>
    intro b c hab hbc _ _ _ h1 _
    cases b with
    | cons y ys => simp at hab
    | nil => simp [lexPad, lexPadR] at h1
  | cons x xs ih =>
    intro b c hab hbc ha hb hc h1 h2
    cases b with
    | nil => simp at hab
    | cons y ys =>
      cases c with
      | nil => simp at hbc
      | cons z zs =>
        have hx : P x := ha x (by simp)
        have hy : P y := hb y (by simp)
        have hz : P z := hc z (by simp)
        simp only [lexPad] at h1 h2 ⊢
        by_cases hxy : f x y = 0
        · rw [if_pos hxy] at h1
          by_cases hyz : f y z = 0
          · have hxz : f x z = 0 := by rw [hfE x y z hx hy hz hxy]; exact hyz
            rw [if_pos hyz] at h2
            rw [if_pos hxz]
            exact ih ys zs (by simpa using hab) (by simpa using hbc)
              (fun w hw => ha w (by simp [hw])) (fun w hw => hb w (by simp [hw]))
              (fun w hw => hc w (by simp [hw])) h1 h2
          · rw [if_neg hyz] at h2
            have hxz : f x z = f y z := hfE x y z hx hy hz hxy
            rw [if_neg (by omega), hxz]
            exact h2
        · rw [if_neg hxy] at h1
          by_cases hyz : f y z = 0
          · rw [if_pos hyz] at h2
            have hxz : f x y = f x z := hfE2 x y z hx hy hz hyz
            rw [if_neg (by omega), ← hxz]
            exact h1
          · rw [if_neg hyz] at h2
            have hxz : f x z < 0 := hfT x y z hx hy hz h1 h2
            rw [if_neg (by omega)]
            exact hxz

theorem allP_pad {α : Type} (P : α → Prop) (e : α) (hPe : P e) (k : Nat) :
    ∀ a : List α, (∀ x ∈ a, P x) → ∀ x ∈ a ++ List.replicate k e, P x := by
  intro a ha x hx
  rcases List.mem_append.1 hx with h | h
  · exact ha x h
  · rw [List.eq_of_mem_replicate h]; exact hPe

theorem lexPad_eq_subst {α : Type} (f : α → α → Int) (e : α) (P : α → Prop)
    (hee : f e e = 0) (hPe : P e)
    (hfE : ∀ a b c, P a → P b → P c → f a b = 0 → f a c = f b c) :
    ∀ a b c : List α, (∀ x ∈ a, P x) → (∀ x ∈ b, P x) → (∀ x ∈ c, P x) →
      lexPad f e a b = 0 → lexPad f e a c = lexPad f e b c := by
  intro a b c ha hb hc h0
  have hM1 : a.length ≤ max (max a.length b.length) c.length := by omega
  have hM2 : b.length ≤ max (max a.length b.length) c.length := by omega
  have hM3 : c.length ≤ max (max a.length b.length) c.length := by omega
  have la : (a ++ List.replicate (max (max a.length b.length) c.length - a.length) e).length
      = max (max a.length b.length) c.length := by
    simp only [List.length_append, List.length_replicate]; omega
  have lb : (b ++ List.replicate (max (max a.length b.length) c.length - b.length) e).length
      = max (max a.length b.length) c.length := by
    simp only [List.length_append, List.length_replicate]; omega
  have lc : (c ++ List.replicate (max (max a.length b.length) c.length - c.length) e).length
      = max (max a.length b.length) c.length := by
    simp only [List.length_append, List.length_replicate]; omega
  have key := lexPad_eq_subst_len f e P hfE
    (a ++ List.replicate (max (max a.length b.length) c.length - a.length) e)
    (b ++ List.replicate (max (max a.length b.length) c.length - b.length) e)
    (c ++ List.replicate (max (max a.length b.length) c.length - c.length) e)
    (by rw [la, lb]) (by rw [lb, lc])
    (allP_pad P e hPe _ a ha) (allP_pad P e hPe _ b hb) (allP_pad P e hPe _ c hc)
    (by rw [lexPad_pad_left_rep f e hee, lexPad_pad_right_rep f e hee]; exact h0)
  rw [lexPad_pad_left_rep f e hee, lexPad_pad_right_rep f e hee,
      lexPad_pad_left_rep f e hee, lexPad_pad_right_rep f e hee] at key
  exact key

theorem lexPad_lt_trans {α : Type} (f : α → α → Int) (e : α) (P : α → Prop)
    (hee : f e e = 0) (hPe : P e)
    (hfE : ∀ a b c, P a → P b → P c → f a b = 0 → f a c = f b c)
    (hfE2 : ∀ a b c, P a → P b → P c → f b c = 0 → f a b = f a c)
    (hfT : ∀ a b c, P a → P b → P c → f a b < 0 → f b c < 0 → f a c < 0) :
    ∀ a b c : List α, (∀ x ∈ a, P x) → (∀ x ∈ b, P x) → (∀ x ∈ c, P x) →
      lexPad f e a b < 0 → lexPad f e b c < 0 → lexPad f e a c < 0 := by
  intro a b c ha hb hc h1 h2
  have la : (a ++ List.replicate (max (max a.length b.length) c.length - a.length) e).length
      = max (max a.length b.length) c.length := by
    simp only [List.length_append, List.length_replicate]; omega
  have lb : (b ++ List.replicate (max (max a.length b.length) c.length - b.length) e).length
      = max (max a.length b.length) c.length := by
    simp only [List.length_append, List.length_replicate]; omega
  have lc : (c ++ List.replicate (max (max a.length b.length) c.length - c.length) e).length
      = max (max a.length b.length) c.length := by
    simp only [List.length_append, List.length_replicate]; omega
  have key := lexPad_lt_trans_len f e P hfE hfE2 hfT
    (a ++ List.replicate (max (max a.length b.length) c.length - a.length) e)
    (b ++ List.replicate (max (max a.length b.length) c.length - b.length) e)
    (c ++ List.replicate (max (max a.length b.length) c.length - c.length) e)
    (by rw [la, lb]) (by rw [lb, lc])
    (allP_pad P e hPe _ a ha) (allP_pad P e hPe _ b hb) (allP_pad P e hPe _ c hc)
    (by rw [lexPad_pad_left_rep f e hee, lexPad_pad_right_rep f e hee]; exact h1)
    (by rw [lexPad_pad_left_rep f e hee, lexPad_pad_right_rep f e hee]; exact h2)
  rw [lexPad_pad_left_rep f e hee, lexPad_pad_right_rep f e hee] at key
  exact key

/-! ## Laws of the integer comparison -/

theorem intCmp_refl (a : Int) : intCmp a a = 0 := by simp [intCmp]

theorem intCmp_antisym (a b : Int) : intCmp b a = -(intCmp a b) := by
  unfold intCmp; split_ifs <;> omega

theorem intCmp_eq_zero {a b : Int} (h : intCmp a b = 0) : a = b := by
  unfold intCmp at h; split_ifs at h <;> omega

theorem intCmp_lt_iff {a b : Int} : intCmp a b < 0 ↔ a < b := by
  unfold intCmp; split_ifs <;> omega

theorem intCmp_eq_subst (a b c : Int) (h : intCmp a b = 0) : intCmp a c = intCmp b c := by
  rw [intCmp_eq_zero h]

theorem intCmp_eq_subst2 (a b c : Int) (h : intCmp b c = 0) : intCmp a b = intCmp a c := by
  rw [intCmp_eq_zero h]

theorem intCmp_lt_trans (a b c : Int) (h1 : intCmp a b < 0) (h2 : intCmp b c < 0) :
    intCmp a c < 0 := by
  rw [intCmp_lt_iff] at h1 h2 ⊢; omega

/-! ## Laws of the character-weight string comparison -/

theorem vcs_refl (a : List Char) : versionCmpString a a = 0 :=
  lexPad_refl intCmp 0 (fun _ => True) (fun x _ => intCmp_refl x) _ (fun _ _ => trivial)

theorem vcs_antisym (a b : List Char) : versionCmpString b a = -(versionCmpString a b) :=
  lexPad_antisym intCmp 0 (fun _ => True) trivial (fun x y _ _ => intCmp_antisym x y)
    _ _ (fun _ _ => trivial) (fun _ _ => trivial)

theorem vcs_eq_subst (a b c : List Char) (h : versionCmpString a b = 0) :
    versionCmpString a c = versionCmpString b c :=
  lexPad_eq_subst intCmp 0 (fun _ => True) (intCmp_refl 0) trivial
    (fun x y z _ _ _ => intCmp_eq_subst x y z) _ _ _
    (fun _ _ => trivial) (fun _ _ => trivial) (fun _ _ => trivial) h

theorem vcs_lt_trans (a b c : List Char) (h1 : versionCmpString a b < 0)
    (h2 : versionCmpString b c < 0) : versionCmpString a c < 0 :=
  lexPad_lt_trans intCmp 0 (fun _ => True) (intCmp_refl 0) trivial
    (fun x y z _ _ _ => intCmp_eq_subst x y z)
    (fun x y z _ _ _ => intCmp_eq_subst2 x y z)
    (fun x y z _ _ _ => intCmp_lt_trans x y z) _ _ _
    (fun _ _ => trivial) (fun _ _ => trivial) (fun _ _ => trivial) h1 h2

/-! ## Character-weight facts -/

theorem charOrder_digit {c : Char} (hc : isDig c = true) :
    1 ≤ charOrder c ∧ charOrder c ≤ 10 := by
  have hb : 48 ≤ c.toNat ∧ c.toNat ≤ 57 := by
    unfold isDig at hc
    simp only [Bool.and_eq_true, decide_eq_true_eq] at hc
    exact hc
  have hne : c ≠ '~' := by
    intro h; subst h
    exact absurd hc (by decide)
  unfold charOrder
  rw [if_neg hne, if_pos hc]
  omega

theorem charOrder_nondigit {c : Char} (hc : isDig c = false) :
    charOrder c = -1 ∨ 65 ≤ charOrder c := by
  unfold charOrder
  by_cases h1 : c = '~'
  · left; rw [if_pos h1]
  · right
    rw [if_neg h1, if_neg (by simp [hc])]
    by_cases h2 : isAlphaChar c = true
    · rw [if_pos h2]
      unfold isAlphaChar at h2
      simp only [Bool.or_eq_true, Bool.and_eq_true, decide_eq_true_eq] at h2
      omega
    · rw [if_neg h2]; omega

theorem charOrder_tilde : charOrder '~' = -1 := by decide

theorem charOrder_eq_neg_one {c : Char} (h : charOrder c = -1) : c = '~' := by
  by_contra hne
  unfold charOrder at h
  rw [if_neg hne] at h
  by_cases h2 : isDig c = true
  · rw [if_pos h2] at h
    have := charOrder_digit h2
    unfold charOrder at this
    rw [if_neg hne, if_pos h2] at this
    omega
  · rw [if_neg h2] at h
    by_cases h3 : isAlphaChar c = true
    · rw [if_pos h3] at h
      unfold isAlphaChar at h3
      simp only [Bool.or_eq_true, Bool.and_eq_true, decide_eq_true_eq] at h3
      omega
    · rw [if_neg h3] at h; omega

theorem vcs_cons (x y : Char) (xs ys : List Char) :
    versionCmpString (x :: xs) (y :: ys) =
      if intCmp (charOrder x) (charOrder y) = 0 then versionCmpString xs ys
      else intCmp (charOrder x) (charOrder y) := by
  simp only [versionCmpString, List.map_cons, lexPad]

theorem vcs_digit_nondigit {x y : Char} (hx : isDig x = true) (hy : isDig y = false)
    (xs ys : List Char) :
    versionCmpString (x :: xs) (y :: ys) = if y = '~' then 1 else -1 := by
  have hxb := charOrder_digit hx
  rw [vcs_cons]
  by_cases h1 : y = '~'
  · subst h1
    rw [charOrder_tilde]
    have h2 : intCmp (charOrder x) (-1) = 1 := by unfold intCmp; split_ifs <;> omega
    rw [h2]
    simp
  · rcases charOrder_nondigit hy with h2 | h2
    · exact absurd (charOrder_eq_neg_one h2) h1
    · have h3 : intCmp (charOrder x) (charOrder y) = -1 := by
        unfold intCmp; split_ifs <;> omega
      rw [h3]
      simp [h1]

theorem vcs_nondigit_digit {x y : Char} (hx : isDig x = false) (hy : isDig y = true)
    (xs ys : List Char) :
    versionCmpString (x :: xs) (y :: ys) = if x = '~' then -1 else 1 := by
  have h1 := vcs_digit_nondigit hy hx ys xs
  have h2 := vcs_antisym (x :: xs) (y :: ys)
  rw [h1] at h2
  by_cases h3 : x = '~'
  · rw [if_pos h3] at h2 ⊢; omega
  · rw [if_neg h3] at h2 ⊢; omega

/-! ## Laws of the token comparison -/

theorem tokenCmp_refl (a : List Char) : tokenCmp a a = 0 := by
  unfold tokenCmp
  by_cases h : (strIsDigit a && strIsDigit a) = true
  · rw [if_pos h]; exact intCmp_refl _
  · rw [if_neg h]; exact vcs_refl a

theorem tokenCmp_antisym (a b : List Char) : tokenCmp b a = -(tokenCmp a b) := by
  unfold tokenCmp
  rw [Bool.and_comm (strIsDigit b) (strIsDigit a)]
  by_cases h : (strIsDigit a && strIsDigit b) = true
  · rw [if_pos h, if_pos h]; exact intCmp_antisym _ _
  · rw [if_neg h, if_neg h]; exact vcs_antisym a b

theorem strIsDigit_all {l : List Char} (h : strIsDigit l = true) : ∀ c ∈ l, isDig c = true := by
  unfold strIsDigit at h
  simp only [Bool.and_eq_true, List.all_eq_true] at h
  exact h.2

theorem strIsDigit_ne_nil {l : List Char} (h : strIsDigit l = true) : l ≠ [] := by
  unfold strIsDigit at h
  simp only [Bool.and_eq_true] at h
  intro he; subst he; simp at h

theorem homTok_nondigit_all {l : List Char} (ht : homTok l) (h : strIsDigit l = false) :
    ∀ c ∈ l, isDig c = false := by
  rcases ht with ⟨hne, hall | hall⟩
  · exfalso
    have : strIsDigit l = true := by
      unfold strIsDigit
      simp only [Bool.and_eq_true, List.all_eq_true]
      exact ⟨by simp [List.isEmpty_iff, hne], hall⟩
    rw [this] at h; exact Bool.noConfusion h
  · exact hall

theorem homTok_cons_shape {l : List Char} (ht : l ≠ []) : ∃ x xs, l = x :: xs := by
  cases l with
  | nil => exact absurd rfl ht
  | cons x xs => exact ⟨x, xs, rfl⟩

theorem tok_shape_digit {a : List Char} (da : strIsDigit a = true) :
    ∃ x xs, a = x :: xs ∧ isDig x = true := by
  obtain ⟨x, xs, hx⟩ := homTok_cons_shape (strIsDigit_ne_nil da)
  exact ⟨x, xs, hx, strIsDigit_all da x (by rw [hx]; simp)⟩

theorem tok_shape_nondigit {a : List Char} (ha : homTok a) (da : strIsDigit a = false) :
    ∃ x xs, a = x :: xs ∧ isDig x = false := by
  obtain ⟨x, xs, hx⟩ := homTok_cons_shape ha.1
  exact ⟨x, xs, hx, homTok_nondigit_all ha da x (by rw [hx]; simp)⟩

theorem tokenCmp_digit_digit {a b : List Char} (da : strIsDigit a = true)
    (db : strIsDigit b = true) :
    tokenCmp a b = intCmp (digitsToNat a) (digitsToNat b) := by
  unfold tokenCmp; rw [da, db]; simp

theorem tokenCmp_str {a b : List Char} (h : ¬(strIsDigit a = true ∧ strIsDigit b = true)) :
    tokenCmp a b = versionCmpString a b := by
  unfold tokenCmp
  rw [if_neg (by simp only [Bool.and_eq_true]; exact h)]

theorem vcs_head_eq {x y : Char} {xs ys : List Char}
    (h : versionCmpString (x :: xs) (y :: ys) = 0) : charOrder x = charOrder y := by
  rw [vcs_cons] at h
  by_cases hce : intCmp (charOrder x) (charOrder y) = 0
  · exact intCmp_eq_zero hce
  · rw [if_neg hce] at h; exact absurd h hce

theorem vcs_nondigit_tilde {y : Char} (hy : isDig y = false) (hyn : y ≠ '~')
    (ys zs : List Char) : versionCmpString (y :: ys) ('~' :: zs) = 1 := by
  rcases charOrder_nondigit hy with h | h
  · exact absurd (charOrder_eq_neg_one h) hyn
  · rw [vcs_cons, charOrder_tilde]
    have h2 : intCmp (charOrder y) (-1) = 1 := by unfold intCmp; split_ifs <;> omega
    rw [h2]; simp

theorem vcs_tilde_nondigit {z : Char} (hz : isDig z = false) (hzn : z ≠ '~')
    (xs zs : List Char) : versionCmpString ('~' :: xs) (z :: zs) = -1 := by
  rcases charOrder_nondigit hz with h | h
  · exact absurd (charOrder_eq_neg_one h) hzn
  · rw [vcs_cons, charOrder_tilde]
    have h2 : intCmp (-1) (charOrder z) = -1 := by unfold intCmp; split_ifs <;> omega
    rw [h2]; simp

theorem vcs_digit_nondigit_ne {a b : List Char} (hb : homTok b)
    (da : strIsDigit a = true) (db : strIsDigit b = false) : versionCmpString a b ≠ 0 := by
  obtain ⟨x, xs, hxa, hxd⟩ := tok_shape_digit da
  obtain ⟨y, ys, hyb, hyd⟩ := tok_shape_nondigit hb db
  rw [hxa, hyb, vcs_digit_nondigit hxd hyd]
  split_ifs <;> omega

theorem vcs_nondigit_digit_ne {a b : List Char} (ha : homTok a)
    (da : strIsDigit a = false) (db : strIsDigit b = true) : versionCmpString a b ≠ 0 := by
  obtain ⟨x, xs, hxa, hxd⟩ := tok_shape_nondigit ha da
  obtain ⟨y, ys, hyb, hyd⟩ := tok_shape_digit db
  rw [hxa, hyb, vcs_nondigit_digit hxd hyd]
  split_ifs <;> omega

theorem tokenCmp_eq_subst {a b c : List Char} (ha : homTok a) (hb : homTok b)
    (hc : homTok c) (h0 : tokenCmp a b = 0) : tokenCmp a c = tokenCmp b c := by
  by_cases da : strIsDigit a = true <;> by_cases db : strIsDigit b = true <;>
    by_cases dc : strIsDigit c = true
  · rw [tokenCmp_digit_digit da db] at h0
    rw [tokenCmp_digit_digit da dc, tokenCmp_digit_digit db dc, intCmp_eq_zero h0]
  · rw [tokenCmp_digit_digit da db] at h0
    have hdn : digitsToNat a = digitsToNat b := by
      have := intCmp_eq_zero h0; exact_mod_cast this
    obtain ⟨x, xs, hxa, hxd⟩ := tok_shape_digit da
    obtain ⟨y, ys, hyb, hyd⟩ := tok_shape_digit db
    obtain ⟨z, zs, hzc, hzd⟩ := tok_shape_nondigit hc (by simpa using dc)
    rw [tokenCmp_str (by tauto), tokenCmp_str (by tauto), hxa, hyb, hzc,
        vcs_digit_nondigit hxd hzd, vcs_digit_nondigit hyd hzd]
  · rw [tokenCmp_str (by tauto)] at h0
    exact absurd h0 (vcs_digit_nondigit_ne hb da (by simpa using db))
  · rw [tokenCmp_str (by tauto)] at h0
    exact absurd h0 (vcs_digit_nondigit_ne hb da (by simpa using db))
  · rw [tokenCmp_str (by tauto)] at h0
    exact absurd h0 (vcs_nondigit_digit_ne ha (by simpa using da) db)
  · rw [tokenCmp_str (by tauto)] at h0
    exact absurd h0 (vcs_nondigit_digit_ne ha (by simpa using da) db)
  · rw [tokenCmp_str (by tauto)] at h0
    obtain ⟨x, xs, hxa, hxd⟩ := tok_shape_nondigit ha (by simpa using da)
    obtain ⟨y, ys, hyb, hyd⟩ := tok_shape_nondigit hb (by simpa using db)
    have hco : charOrder x = charOrder y := by
      rw [hxa, hyb] at h0; exact vcs_head_eq h0
    rw [tokenCmp_str (by tauto), tokenCmp_str (by tauto), hxa, hyb]
    obtain ⟨z, zs, hzc, hzd⟩ := tok_shape_digit dc
    rw [hzc, vcs_nondigit_digit hxd hzd, vcs_nondigit_digit hyd hzd]
    by_cases hxt : x = '~'
    · have hyt : y = '~' := by
        apply charOrder_eq_neg_one
        rw [← hco, hxt, charOrder_tilde]
      rw [if_pos hxt, if_pos hyt]
    · have hyt : y ≠ '~' := by
        intro h; apply hxt; apply charOrder_eq_neg_one
        rw [hco, h, charOrder_tilde]
      rw [if_neg hxt, if_neg hyt]
  · rw [tokenCmp_str (by tauto)] at h0
    rw [tokenCmp_str (by tauto), tokenCmp_str (by tauto)]
    exact vcs_eq_subst a b c h0

theorem tokenCmp_eq_subst2 {a b c : List Char} (ha : homTok a) (hb : homTok b)
    (hc : homTok c) (h0 : tokenCmp b c = 0) : tokenCmp a b = tokenCmp a c := by
  have h1 : tokenCmp a b = -(tokenCmp b a) := by rw [tokenCmp_antisym]
  have h2 : tokenCmp b a = tokenCmp c a := tokenCmp_eq_subst hb hc ha h0
  have h3 : tokenCmp c a = -(tokenCmp a c) := by rw [tokenCmp_antisym]
  omega

theorem tokenCmp_lt_trans {a b c : List Char} (ha : homTok a) (hb : homTok b)
    (hc : homTok c) (h1 : tokenCmp a b < 0) (h2 : tokenCmp b c < 0) : tokenCmp a c < 0 := by
  by_cases da : strIsDigit a = true <;> by_cases db : strIsDigit b = true <;>
    by_cases dc : strIsDigit c = true
  · rw [tokenCmp_digit_digit da db] at h1
    rw [tokenCmp_digit_digit db dc] at h2
    rw [tokenCmp_digit_digit da dc]
    exact intCmp_lt_trans _ _ _ h1 h2
  · obtain ⟨x, xs, hxa, hxd⟩ := tok_shape_digit da
    obtain ⟨y, ys, hyb, hyd⟩ := tok_shape_digit db
    obtain ⟨z, zs, hzc, hzd⟩ := tok_shape_nondigit hc (by simpa using dc)
    rw [tokenCmp_str (by tauto), hyb, hzc, vcs_digit_nondigit hyd hzd] at h2
    have hzt : z ≠ '~' := by
      intro h; rw [if_pos h] at h2; omega
    rw [tokenCmp_str (by tauto), hxa, hzc, vcs_digit_nondigit hxd hzd, if_neg hzt]
    omega
  · obtain ⟨x, xs, hxa, hxd⟩ := tok_shape_digit da
    obtain ⟨y, ys, hyb, hyd⟩ := tok_shape_nondigit hb (by simpa using db)
    obtain ⟨z, zs, hzc, hzd⟩ := tok_shape_digit dc
    rw [tokenCmp_str (by tauto), hxa, hyb, vcs_digit_nondigit hxd hyd] at h1
    have hyt : y ≠ '~' := by
      intro h; rw [if_pos h] at h1; omega
    rw [tokenCmp_str (by tauto), hyb, hzc, vcs_nondigit_digit hyd hzd, if_neg hyt] at h2
    omega
  · obtain ⟨x, xs, hxa, hxd⟩ := tok_shape_digit da
    obtain ⟨y, ys, hyb, hyd⟩ := tok_shape_nondigit hb (by simpa using db)
    obtain ⟨z, zs, hzc, hzd⟩ := tok_shape_nondigit hc (by simpa using dc)
    rw [tokenCmp_str (by tauto), hxa, hyb, vcs_digit_nondigit hxd hyd] at h1
    have hyt : y ≠ '~' := by
      intro h; rw [if_pos h] at h1; omega
    rw [tokenCmp_str (by tauto), hyb, hzc] at h2
    have hzt : z ≠ '~' := by
      intro h; subst h
      rw [vcs_nondigit_tilde hyd hyt] at h2; omega
    rw [tokenCmp_str (by tauto), hxa, hzc, vcs_digit_nondigit hxd hzd, if_neg hzt]
    omega
  · obtain ⟨x, xs, hxa, hxd⟩ := tok_shape_nondigit ha (by simpa using da)
    obtain ⟨y, ys, hyb, hyd⟩ := tok_shape_digit db
    obtain ⟨z, zs, hzc, hzd⟩ := tok_shape_digit dc
    rw [tokenCmp_str (by tauto), hxa, hyb, vcs_nondigit_digit hxd hyd] at h1
    have hxt : x = '~' := by
      by_contra h; rw [if_neg h] at h1; omega
    rw [tokenCmp_str (by tauto), hxa, hzc, vcs_nondigit_digit hxd hzd, if_pos hxt]
    omega
  · obtain ⟨x, xs, hxa, hxd⟩ := tok_shape_nondigit ha (by simpa using da)
    obtain ⟨y, ys, hyb, hyd⟩ := tok_shape_digit db
    obtain ⟨z, zs, hzc, hzd⟩ := tok_shape_nondigit hc (by simpa using dc)
    rw [tokenCmp_str (by tauto), hxa, hyb, vcs_nondigit_digit hxd hyd] at h1
    have hxt : x = '~' := by
      by_contra h; rw [if_neg h] at h1; omega
    rw [tokenCmp_str (by tauto), hyb, hzc, vcs_digit_nondigit hyd hzd] at h2
    have hzt : z ≠ '~' := by
      intro h; rw [if_pos h] at h2; omega
    rw [tokenCmp_str (by tauto), hxa, hzc, hxt, vcs_tilde_nondigit hzd hzt]
    omega
  · obtain ⟨x, xs, hxa, hxd⟩ := tok_shape_nondigit ha (by simpa using da)
    obtain ⟨y, ys, hyb, hyd⟩ := tok_shape_nondigit hb (by simpa using db)
    obtain ⟨z, zs, hzc, hzd⟩ := tok_shape_digit dc
    rw [tokenCmp_str (by tauto), hyb, hzc, vcs_nondigit_digit hyd hzd] at h2
    have hyt : y = '~' := by
      by_contra h; rw [if_neg h] at h2; omega
    rw [tokenCmp_str (by tauto), hxa, hyb] at h1
    have hxt : x = '~' := by
      by_contra h
      rw [hyt, vcs_nondigit_tilde hxd h] at h1; omega
    rw [tokenCmp_str (by tauto), hxa, hzc, vcs_nondigit_digit hxd hzd, if_pos hxt]
    omega
  · rw [tokenCmp_str (by tauto)] at h1
    rw [tokenCmp_str (by tauto)] at h2
    rw [tokenCmp_str (by tauto)]
    exact vcs_lt_trans a b c h1 h2

/-! ## splitRuns invariants and the version-part comparison laws -/

theorem splitRuns_head_shape : ∀ (d : Char) (cs : List Char),
    ∃ r rs, splitRuns (d :: cs) = (d :: r) :: rs := by
  intro d cs
  induction cs generalizing d with
  | nil => exact ⟨[], [], rfl⟩
  | cons e es ih =>
    obtain ⟨r, rs, hr⟩ := ih e
    by_cases h : isDig d = isDig e
    · refine ⟨e :: r, rs, ?_⟩
      simp only [splitRuns, if_pos h, hr]
    · refine ⟨[], (e :: r) :: rs, ?_⟩
      simp only [splitRuns, if_neg h, hr]

theorem homTok_extend {d : Char} {r : List Char} (hh : homTok (d :: r)) (c : Char)
    (hcd : isDig c = isDig d) : homTok (c :: d :: r) := by
  refine ⟨by simp, ?_⟩
  rcases hh.2 with hall | hall
  · left
    intro x hx
    rcases List.mem_cons.1 hx with h | h
    · subst h; rw [hcd]; exact hall d (by simp)
    · exact hall x h
  · right
    intro x hx
    rcases List.mem_cons.1 hx with h | h
    · subst h; rw [hcd]; exact hall d (by simp)
    · exact hall x h

theorem homTok_single (c : Char) : homTok [c] := by
  refine ⟨by simp, ?_⟩
  by_cases h : isDig c = true
  · left; intro x hx; simp at hx; subst hx; exact h
  · right; intro x hx; simp at hx; subst hx; simpa using h

theorem splitRuns_homTok : ∀ (l : List Char), ∀ t ∈ splitRuns l, homTok t := by
  intro l
  induction l with
  | nil => intro t ht; simp [splitRuns] at ht
  | cons c cs ih =>
    cases cs with
    | nil =>
      intro t ht
      simp only [splitRuns, List.mem_singleton] at ht
      subst ht; exact homTok_single c
    | cons d ds =>
      intro t ht
      obtain ⟨r, rs, hr⟩ := splitRuns_head_shape d ds
      by_cases h : isDig c = isDig d
      · simp only [splitRuns, if_pos h, hr] at ht
        rcases List.mem_cons.1 ht with h1 | h1
        · subst h1
          exact homTok_extend (by exact ih (d :: r) (by rw [hr]; simp)) c h
        · exact ih t (by rw [hr]; simp [h1])
      · simp only [splitRuns, if_neg h] at ht
        rcases List.mem_cons.1 ht with h1 | h1
        · subst h1; exact homTok_single c
        · exact ih t h1

theorem homTok_zero : homTok ['0'] := homTok_single '0'

theorem tokenCmp_zero_zero : tokenCmp ['0'] ['0'] = 0 := tokenCmp_refl ['0']

theorem vcp_refl (a : List Char) : versionCmpPart a a = 0 :=
  lexPad_refl tokenCmp ['0'] homTok (fun t _ => tokenCmp_refl t) _ (splitRuns_homTok a)

theorem vcp_antisym (a b : List Char) : versionCmpPart b a = -(versionCmpPart a b) :=
  lexPad_antisym tokenCmp ['0'] homTok homTok_zero
    (fun x y _ _ => tokenCmp_antisym x y) _ _ (splitRuns_homTok a) (splitRuns_homTok b)

theorem vcp_eq_subst (a b c : List Char) (h : versionCmpPart a b = 0) :
    versionCmpPart a c = versionCmpPart b c :=
  lexPad_eq_subst tokenCmp ['0'] homTok tokenCmp_zero_zero homTok_zero
    (fun _ _ _ hx hy hz => tokenCmp_eq_subst hx hy hz) _ _ _
    (splitRuns_homTok a) (splitRuns_homTok b) (splitRuns_homTok c) h

theorem vcp_eq_subst2 (a b c : List Char) (h : versionCmpPart b c = 0) :
    versionCmpPart a b = versionCmpPart a c := by
  have h1 : versionCmpPart a b = -(versionCmpPart b a) := by rw [vcp_antisym]
  have h2 : versionCmpPart b a = versionCmpPart c a := vcp_eq_subst b c a h
  have h3 : versionCmpPart c a = -(versionCmpPart a c) := by rw [vcp_antisym]
  omega

theorem vcp_lt_trans (a b c : List Char) (h1 : versionCmpPart a b < 0)
    (h2 : versionCmpPart b c < 0) : versionCmpPart a c < 0 :=
  lexPad_lt_trans tokenCmp ['0'] homTok tokenCmp_zero_zero homTok_zero
    (fun _ _ _ hx hy hz => tokenCmp_eq_subst hx hy hz)
    (fun _ _ _ hx hy hz => tokenCmp_eq_subst2 hx hy hz)
    (fun _ _ _ hx hy hz => tokenCmp_lt_trans hx hy hz) _ _ _
    (splitRuns_homTok a) (splitRuns_homTok b) (splitRuns_homTok c) h1 h2

/-! ## Laws of the full version comparison -/

theorem cmpDeb_refl (a : DebVersion) : cmpDebVersion a a = 0 := by
  unfold cmpDebVersion
  rw [if_neg (by omega), if_neg (by omega), if_neg (by simp [vcp_refl])]
  exact vcp_refl _

theorem cmpDeb_antisym (a b : DebVersion) : cmpDebVersion b a = -(cmpDebVersion a b) := by
  unfold cmpDebVersion
  have hu : versionCmpPart b.upstream a.upstream = -(versionCmpPart a.upstream b.upstream) :=
    vcp_antisym _ _
  have hr : versionCmpPart (b.revision.getD ['0']) (a.revision.getD ['0'])
      = -(versionCmpPart (a.revision.getD ['0']) (b.revision.getD ['0'])) :=
    vcp_antisym _ _
  split_ifs <;> omega

theorem cmpDeb_eq_parts {a b : DebVersion} (h : cmpDebVersion a b = 0) :
    a.epoch = b.epoch ∧ versionCmpPart a.upstream b.upstream = 0 ∧
      versionCmpPart (a.revision.getD ['0']) (b.revision.getD ['0']) = 0 := by
  unfold cmpDebVersion at h
  by_cases h1 : a.epoch < b.epoch
  · rw [if_pos h1] at h; omega
  · rw [if_neg h1] at h
    by_cases h2 : b.epoch < a.epoch
    · rw [if_pos h2] at h; omega
    · rw [if_neg h2] at h
      by_cases h3 : versionCmpPart a.upstream b.upstream = 0
      · rw [if_neg (by simp [h3])] at h
        exact ⟨by omega, h3, h⟩
      · rw [if_pos h3] at h; exact absurd h h3

theorem cmpDeb_lt_parts {a b : DebVersion} (h : cmpDebVersion a b < 0) :
    a.epoch < b.epoch ∨ (a.epoch = b.epoch ∧
      (versionCmpPart a.upstream b.upstream < 0 ∨
        (versionCmpPart a.upstream b.upstream = 0 ∧
          versionCmpPart (a.revision.getD ['0']) (b.revision.getD ['0']) < 0))) := by
  unfold cmpDebVersion at h
  by_cases h1 : a.epoch < b.epoch
  · exact Or.inl h1
  · rw [if_neg h1] at h
    by_cases h2 : b.epoch < a.epoch
    · rw [if_pos h2] at h; omega
    · rw [if_neg h2] at h
      refine Or.inr ⟨by omega, ?_⟩
      by_cases h3 : versionCmpPart a.upstream b.upstream = 0
      · rw [if_neg (by simp [h3])] at h
        exact Or.inr ⟨h3, h⟩
      · rw [if_pos h3] at h
        exact Or.inl h

theorem cmpDeb_of_parts_lt {a b : DebVersion}
    (h : a.epoch < b.epoch ∨ (a.epoch = b.epoch ∧
      (versionCmpPart a.upstream b.upstream < 0 ∨
        (versionCmpPart a.upstream b.upstream = 0 ∧
          versionCmpPart (a.revision.getD ['0']) (b.revision.getD ['0']) < 0)))) :
    cmpDebVersion a b < 0 := by
  unfold cmpDebVersion
  rcases h with h | ⟨he, h⟩
  · rw [if_pos h]; omega
  · rw [if_neg (by omega), if_neg (by omega)]
    rcases h with h | ⟨h1, h2⟩
    · rw [if_pos (by omega)]; exact h
    · rw [if_neg (by simp [h1])]; exact h2

theorem cmpDeb_eq_subst {a b c : DebVersion} (h : cmpDebVersion a b = 0) :
    cmpDebVersion a c = cmpDebVersion b c := by
  obtain ⟨he, hu, hr⟩ := cmpDeb_eq_parts h
  unfold cmpDebVersion
  rw [he, vcp_eq_subst _ _ c.upstream hu,
      vcp_eq_subst _ _ (c.revision.getD ['0']) hr]

theorem cmpDeb_le_trans {a b c : DebVersion} (h1 : cmpDebVersion a b ≤ 0)
    (h2 : cmpDebVersion b c ≤ 0) : cmpDebVersion a c ≤ 0 := by
  rcases lt_or_eq_of_le h1 with h1' | h1'
  · rcases lt_or_eq_of_le h2 with h2' | h2'
    · have ha := cmpDeb_lt_parts h1'
      have hb := cmpDeb_lt_parts h2'
      apply le_of_lt
      apply cmpDeb_of_parts_lt
      rcases ha with ha | ⟨hae, ha⟩
      · rcases hb with hb | ⟨hbe, hb⟩
        · exact Or.inl (by omega)
        · exact Or.inl (by omega)
      · rcases hb with hb | ⟨hbe, hb⟩
        · exact Or.inl (by omega)
        · refine Or.inr ⟨by omega, ?_⟩
          rcases ha with ha | ⟨ha1, ha2⟩
          · rcases hb with hb | ⟨hb1, hb2⟩
            · exact Or.inl (vcp_lt_trans _ _ _ ha hb)
            · exact Or.inl (by rw [← vcp_eq_subst2 a.upstream b.upstream c.upstream hb1]; exact ha)
          · rcases hb with hb | ⟨hb1, hb2⟩
            · exact Or.inl (by rw [vcp_eq_subst a.upstream b.upstream c.upstream ha1]; exact hb)
            · refine Or.inr ⟨by rw [vcp_eq_subst a.upstream b.upstream c.upstream ha1]; exact hb1, ?_⟩
              exact vcp_lt_trans _ _ _ ha2 hb2
    · have h3 : cmpDebVersion b c = 0 := h2'
      have h4 : cmpDebVersion b a = -(cmpDebVersion a b) := cmpDeb_antisym a b
      have h5 : cmpDebVersion b a = cmpDebVersion c a := cmpDeb_eq_subst h3
      have h6 : cmpDebVersion c a = -(cmpDebVersion a c) := cmpDeb_antisym a c
      omega
  · have h3 : cmpDebVersion a b = 0 := h1'
    rw [cmpDeb_eq_subst h3]
    exact h2

theorem version_compare_some {a b : String} {va vb : DebVersion}
    (ha : parseVersion a = some va) (hb : parseVersion b = some vb) :
    version_compare a b = some (cmpDebVersion va vb) := by
  simp [version_compare, ha, hb]

theorem version_compare_some_inv {a b : String} {c : Int}
    (h : version_compare a b = some c) :
    ∃ va vb, parseVersion a = some va ∧ parseVersion b = some vb ∧
      c = cmpDebVersion va vb := by
  unfold version_compare at h
  cases hpa : parseVersion a with
  | none => rw [hpa] at h; simp at h
  | some va =>
    cases hpb : parseVersion b with
    | none => rw [hpa, hpb] at h; simp at h
    | some vb =>
      rw [hpa, hpb] at h
      simp at h
      exact ⟨va, vb, rfl, rfl, h.symm⟩

theorem validVer_parse {a : String} (h : validVer a) : ∃ va, parseVersion a = some va := by
  unfold validVer at h
  exact Option.isSome_iff_exists.1 h

theorem vle_refl {a : String} (h : validVer a) : vle a a := by
  obtain ⟨va, hva⟩ := validVer_parse h
  exact ⟨cmpDebVersion va va, version_compare_some hva hva, by rw [cmpDeb_refl]⟩

theorem vle_trans {a b c : String} (ha : validVer a) (hb : validVer b) (hc : validVer c)
    (h1 : vle a b) (h2 : vle b c) : vle a c := by
  obtain ⟨va, hva⟩ := validVer_parse ha
  obtain ⟨vb, hvb⟩ := validVer_parse hb
  obtain ⟨vc, hvc⟩ := validVer_parse hc
  obtain ⟨c1, hc1, hc1le⟩ := h1
  obtain ⟨c2, hc2, hc2le⟩ := h2
  rw [version_compare_some hva hvb] at hc1
  rw [version_compare_some hvb hvc] at hc2
  have e1 : cmpDebVersion va vb = c1 := by injection hc1
  have e2 : cmpDebVersion vb vc = c2 := by injection hc2
  refine ⟨cmpDebVersion va vc, version_compare_some hva hvc, ?_⟩
  exact @cmpDeb_le_trans va vb vc (by omega) (by omega)

theorem vle_of_pos {v m : String} {c : Int} (h : version_compare v m = some c)
    (hpos : 0 < c) : vle m v := by
  obtain ⟨vv, vm, hvv, hvm, hc⟩ := version_compare_some_inv h
  refine ⟨cmpDebVersion vm vv, version_compare_some hvm hvv, ?_⟩
  have := cmpDeb_antisym vv vm
  omega

theorem vle_of_nonpos {v m : String} {c : Int} (h : version_compare v m = some c)
    (hle : c ≤ 0) : vle v m := ⟨c, h, hle⟩

theorem validVer_of_compare {a b : String} {c : Int} (h : version_compare a b = some c) :
    validVer a ∧ validVer b := by
  obtain ⟨va, vb, hva, hvb, _⟩ := version_compare_some_inv h
  constructor <;> simp [validVer, hva, hvb]

/-! ## Characterization of the max-version fold -/

theorem maxVersion_go : ∀ (l : List String) (acc : String), validVer acc →
    (∀ v ∈ l, validVer v) →
    ∃ m, List.foldlM maxVersionStep acc l = some m ∧ (m = acc ∨ m ∈ l) ∧
      validVer m ∧ vle acc m ∧ ∀ v ∈ l, vle v m := by
  intro l
  induction l with
  | nil =>
    intro acc hacc _
    exact ⟨acc, rfl, Or.inl rfl, hacc, vle_refl hacc, by simp⟩
  | cons v rest ih =>
    intro acc hacc hl
    have hv : validVer v := hl v (by simp)
    obtain ⟨vv, hvv⟩ := validVer_parse hv
    obtain ⟨va, hva⟩ := validVer_parse hacc
    have hcmp : version_compare v acc = some (cmpDebVersion vv va) :=
      version_compare_some hvv hva
    have hstep : maxVersionStep acc v =
        some (if 0 < cmpDebVersion vv va then v else acc) := by
      simp [maxVersionStep, hcmp]
    by_cases hpos : 0 < cmpDebVersion vv va
    · obtain ⟨m, hm, hmem, hmv, hle, hall⟩ := ih v hv (fun w hw => hl w (by simp [hw]))
      refine ⟨m, ?_, ?_, hmv, ?_, ?_⟩
      · simp only [List.foldlM, hstep, if_pos hpos, Option.bind_eq_bind,
          Option.some_bind]
        exact hm
      · rcases hmem with h | h
        · exact Or.inr (by simp [h])
        · exact Or.inr (by simp [h])
      · have hav : vle acc v := vle_of_pos hcmp hpos
        exact vle_trans hacc hv hmv hav hle
      · intro w hw
        rcases List.mem_cons.1 hw with h | h
        · subst h; exact hle
        · exact hall w h
    · obtain ⟨m, hm, hmem, hmv, hle, hall⟩ := ih acc hacc (fun w hw => hl w (by simp [hw]))
      refine ⟨m, ?_, ?_, hmv, hle, ?_⟩
      · simp only [List.foldlM, hstep, if_neg hpos, Option.bind_eq_bind,
          Option.some_bind]
        exact hm
      · rcases hmem with h | h
        · exact Or.inl h
        · exact Or.inr (by simp [h])
      · intro w hw
        rcases List.mem_cons.1 hw with h | h
        · subst h
          exact vle_trans hv hacc hmv (vle_of_nonpos hcmp (by omega)) hle
        · exact hall w h

theorem maxVersion_spec (l : List String) (hl : ∀ v ∈ l, validVer v) :
    ∃ m, maxVersion l = some m ∧ (m = "0.0.0" ∨ m ∈ l) ∧ validVer m ∧
      ∀ v ∈ l, vle v m := by
  obtain ⟨m, hm, hmem, hmv, _, hall⟩ := maxVersion_go l "0.0.0" (by decide) hl
  exact ⟨m, hm, hmem, hmv, hall⟩

/-! ## Facts about the replace scan -/

theorem pyRemove_skip (pat : List Char) :
    ∀ (l : List Char) (k : Nat), pyRemoveAux pat l k = pyRemoveAux pat (l.drop k) 0 := by
  intro l
  induction l with
  | nil => intro k; simp [pyRemoveAux]
  | cons c cs ih =>
    intro k
    cases k with
    | zero => rfl
    | succ j => simpa [pyRemoveAux] using ih j

theorem isPfx_length : ∀ (p l : List Char), isPfx p l = true → p.length ≤ l.length := by
  intro p
  induction p with
  | nil => intro l _; simp
  | cons x xs ih =>
    intro l h
    cases l with
    | nil => simp [isPfx] at h
    | cons c cs =>
      simp only [isPfx, Bool.and_eq_true] at h
      have := ih cs h.2
      simp; omega

theorem isPfx_take : ∀ (p l : List Char), isPfx p l = true → l.take p.length = p := by
  intro p
  induction p with
  | nil => intro l _; simp
  | cons x xs ih =>
    intro l h
    cases l with
    | nil => simp [isPfx] at h
    | cons c cs =>
      simp only [isPfx, Bool.and_eq_true, decide_eq_true_eq] at h
      simp only [List.length_cons, List.take_succ_cons, h.1, List.cons.injEq, true_and]
      exact ih cs h.2

theorem isPfx_append_long : ∀ (p l t : List Char), p.length ≤ l.length →
    isPfx p (l ++ t) = isPfx p l := by
  intro p
  induction p with
  | nil => intro l t _; rfl
  | cons x xs ih =>
    intro l t h
    cases l with
    | nil => simp at h
    | cons c cs =>
      simp only [List.cons_append, isPfx, List.append_eq]
      rw [ih cs t (by simp at h; omega)]

theorem noBorderAmd64 : ∀ l : List Char, l ≠ [] → l.length < 6 →
    isPfx ":amd64".data (l ++ ":amd64".data) = false := by
  intro l hne hlen
  by_contra hcon
  rw [Bool.not_eq_false] at hcon
  have hlP : (":amd64".data).length = 6 := by decide
  have htk : (l ++ ":amd64".data).take 6 = ":amd64".data := by
    have h1 := isPfx_take _ _ hcon
    rw [hlP] at h1
    exact h1
  have hll : (":amd64".data).take l.length = l := by
    have h2 : ((l ++ ":amd64".data).take 6).take l.length = (":amd64".data).take l.length := by
      rw [htk]
    rw [List.take_take] at h2
    have h3 : min l.length 6 = l.length := by omega
    rw [h3] at h2
    have h4 : (l ++ ":amd64".data).take l.length = l := by
      rw [List.take_append_eq_append_take]
      simp
    rw [h4] at h2
    exact h2.symm
  have h0 : 0 < l.length := List.length_pos.2 hne
  have hcon2 : isPfx ":amd64".data ((":amd64".data).take l.length ++ ":amd64".data) = true := by
    rw [hll]; exact hcon
  generalize hk : l.length = k at h0 hlen hcon2
  interval_cases k <;> exact absurd hcon2 (by decide)

theorem pyRemove_cons_zero (pat : List Char) (c : Char) (cs : List Char) :
    pyRemoveAux pat (c :: cs) 0 =
      if isPfx pat (c :: cs) then pyRemoveAux pat cs (pat.length - 1)
      else c :: pyRemoveAux pat cs 0 := rfl

theorem drop_append_le {α : Type} : ∀ (n : Nat) (l t : List α), n ≤ l.length →
    (l ++ t).drop n = l.drop n ++ t := by
  intro n
  induction n with
  | zero => intro l t _; simp
  | succ m ih =>
    intro l t h
    cases l with
    | nil => simp at h
    | cons c cs => simpa using ih cs t (by simp at h; omega)

theorem amd64_data_length : (":amd64".data).length = 6 := by decide

theorem amd64_skip_eq : (":amd64".data).length - 1 = 5 := by decide

theorem pyRemove_append_amd64 : ∀ (n : Nat) (l : List Char), l.length ≤ n →
    pyRemoveAux ":amd64".data (l ++ ":amd64".data) 0 = pyRemoveAux ":amd64".data l 0 := by
  intro n
  induction n with
  | zero =>
    intro l hl
    have hnil : l = [] := by
      cases l with
      | nil => rfl
      | cons c cs => simp at hl
    subst hnil
    decide
  | succ n ih =>
    intro l hl
    cases l with
    | nil => decide
    | cons c cs =>
      by_cases hp : isPfx ":amd64".data (c :: cs) = true
      · have hlen6 : 6 ≤ (c :: cs).length := by
          have h1 := isPfx_length _ _ hp
          rw [amd64_data_length] at h1
          exact h1
        have hcs5 : 5 ≤ cs.length := by simp at hlen6; omega
        have hp2 : isPfx ":amd64".data (c :: (cs ++ ":amd64".data)) = true := by
          rw [← List.cons_append,
              isPfx_append_long _ _ _ (by rw [amd64_data_length]; omega)]
          exact hp
        have e1 : pyRemoveAux ":amd64".data ((c :: cs) ++ ":amd64".data) 0
            = pyRemoveAux ":amd64".data ((cs ++ ":amd64".data).drop 5) 0 := by
          rw [List.cons_append, pyRemove_cons_zero, if_pos hp2, amd64_skip_eq, pyRemove_skip]
        have e2 : pyRemoveAux ":amd64".data (c :: cs) 0
            = pyRemoveAux ":amd64".data (cs.drop 5) 0 := by
          rw [pyRemove_cons_zero, if_pos hp, amd64_skip_eq, pyRemove_skip]
        rw [e1, e2, drop_append_le 5 cs ":amd64".data hcs5]
        exact ih (cs.drop 5) (by simp at hl ⊢; omega)
      · have hp2 : isPfx ":amd64".data ((c :: cs) ++ ":amd64".data) = false := by
          by_cases hlen : 6 ≤ (c :: cs).length
          · rw [isPfx_append_long _ _ _ (by rw [amd64_data_length]; omega)]
            simpa using hp
          · exact noBorderAmd64 (c :: cs) (by simp) (by simp at hlen ⊢; omega)
        rw [List.cons_append] at hp2
        rw [List.cons_append, pyRemove_cons_zero, if_neg (by simp [hp2]),
            pyRemove_cons_zero, if_neg hp]
        rw [ih cs (by simp at hl; omega)]

theorem string_data_append (a b : String) : (a ++ b).data = a.data ++ b.data := rfl

theorem normalizeName_append_amd64 (s : String) :
    normalizeName "amd64" (s ++ ":amd64") = normalizeName "amd64" s := by
  unfold normalizeName pyReplace
  have hpat : ((":" ++ "amd64" : String)).data = ":amd64".data := rfl
  rw [hpat]
  rw [if_neg (by decide), if_neg (by decide)]
  have hdata : (s ++ ":amd64").data = s.data ++ ":amd64".data := string_data_append s ":amd64"
  rw [hdata]
  rw [pyRemove_append_amd64 (s.data.length) s.data (le_refl _)]

/-! ## Characterization of the archive resolver on successful worlds -/

theorem ppaCandidates_ok (w : LPWorld) (f : BinQuery → List String)
    (hw : ∀ q, w.getPublishedBinaries q = .ok (f q)) (series arch binName : String) :
    ∀ ppas : List String, (∀ p ∈ ppas, ppaWf p) →
    ppaCandidates w series arch binName ppas =
      (ppas.map fun p => Event.binQuery (ppaQueryOf series arch binName p),
       .ok (ppas.flatMap fun p => f (ppaQueryOf series arch binName p))) := by
  intro ppas
  induction ppas with
  | nil => intro _; rfl
  | cons ppa rest ih =>
    intro h
    obtain ⟨o, nn, hsplit⟩ := h ppa (by simp)
    have hq : ppaQueryOf series arch binName ppa =
        ⟨.ppa o nn, true, binName, series, arch, "Release", true, "Published"⟩ := by
      unfold ppaQueryOf ppaTargetOf
      rw [hsplit]
    simp only [ppaCandidates, hsplit, hw, ih (fun p hp => h p (by simp [hp])),
      List.map_cons, List.flatMap_cons, hq, Except.map]

theorem pocketCandidates_ok (w : LPWorld) (f : BinQuery → List String)
    (hw : ∀ q, w.getPublishedBinaries q = .ok (f q)) (series arch binName : String) :
    ∀ pockets : List String,
    pocketCandidates w series arch binName pockets =
      (pockets.map fun pk => Event.binQuery (mainQueryOf series arch binName pk),
       .ok (pockets.flatMap fun pk => f (mainQueryOf series arch binName pk))) := by
  intro pockets
  induction pockets with
  | nil => rfl
  | cons pk rest ih =>
    simp only [pocketCandidates, hw, ih, List.map_cons, List.flatMap_cons, mainQueryOf,
      Except.map]

theorem packageCandidates_valid (f : BinQuery → List String)
    (hval : ∀ q, ∀ v ∈ f q, validVer v) (series arch : String) (ppas : List String)
    (name0 : String) : ∀ v ∈ packageCandidates f series arch ppas name0, validVer v := by
  intro v hv
  unfold packageCandidates at hv
  obtain ⟨q, _, hq⟩ := List.mem_flatMap.1 hv
  exact hval q v hq

theorem resolvePackage_ok (w : LPWorld) (f : BinQuery → List String)
    (hw : ∀ q, w.getPublishedBinaries q = .ok (f q)) (series arch : String)
    (ppas : List String) (name0 : String) (hppa : ∀ p ∈ ppas, ppaWf p)
    (hval : ∀ q, ∀ v ∈ f q, validVer v) :
    resolvePackage w series arch ppas name0 =
      ((packagePlan series arch ppas name0).map Event.binQuery,
       .ok (normalizeName arch name0,
            (maxVersion (packageCandidates f series arch ppas name0)).getD "0.0.0")) := by
  obtain ⟨m, hm, _, _, _⟩ :=
    maxVersion_spec _ (packageCandidates_valid f hval series arch ppas name0)
  have hcand : packageCandidates f series arch ppas name0 =
      (ppas.flatMap fun p => f (ppaQueryOf series arch (normalizeName arch name0) p)) ++
      (ARCHIVE_POCKETS.flatMap fun pk =>
        f (mainQueryOf series arch (normalizeName arch name0) pk)) := by
    unfold packageCandidates packagePlan
    rw [List.flatMap_append, List.flatMap_map, List.flatMap_map]
  unfold resolvePackage
  rw [ppaCandidates_ok w f hw series arch _ ppas hppa,
      pocketCandidates_ok w f hw series arch _ ARCHIVE_POCKETS]
  simp only [← hcand, hm]
  unfold packagePlan
  simp only [List.map_append, List.map_map, Option.getD_some]
  rfl

theorem get_archive_versions_ok (w : LPWorld) (f : BinQuery → List String)
    (hw : ∀ q, w.getPublishedBinaries q = .ok (f q)) (series arch : String)
    (ppas : List String) (hppa : ∀ p ∈ ppas, ppaWf p)
    (hval : ∀ q, ∀ v ∈ f q, validVer v) :
    ∀ names : List String,
    get_archive_versions w series names arch ppas =
      (names.flatMap fun n0 => (packagePlan series arch ppas n0).map Event.binQuery,
       .ok (names.map fun n0 => (normalizeName arch n0,
            (maxVersion (packageCandidates f series arch ppas n0)).getD "0.0.0"))) := by
  intro names
  induction names with
  | nil => rfl
  | cons n rest ih =>
    simp only [get_archive_versions,
      resolvePackage_ok w f hw series arch ppas n hppa hval, ih,
      List.flatMap_cons, List.map_cons, Except.map]

/-! ## Empty supplementary repositories contribute nothing -/

theorem ppaCandidates_empty (w : LPWorld) (series arch binName : String)
    (hemp : ∀ q : BinQuery, q.target ≠ ArchiveTarget.main → w.getPublishedBinaries q = .ok []) :
    ∀ ppas : List String, (∀ p ∈ ppas, ppaWf p) →
    ppaCandidates w series arch binName ppas =
      (ppas.map fun p => Event.binQuery (ppaQueryOf series arch binName p), .ok []) := by
  intro ppas
  induction ppas with
  | nil => intro _; rfl
  | cons ppa rest ih =>
    intro h
    obtain ⟨o, nn, hsplit⟩ := h ppa (by simp)
    have hq : ppaQueryOf series arch binName ppa =
        ⟨.ppa o nn, true, binName, series, arch, "Release", true, "Published"⟩ := by
      unfold ppaQueryOf ppaTargetOf
      rw [hsplit]
    have hans : w.getPublishedBinaries
        ⟨.ppa o nn, true, binName, series, arch, "Release", true, "Published"⟩ = .ok [] :=
      hemp _ (by simp)
    simp only [ppaCandidates, hsplit, hans, ih (fun p hp => h p (by simp [hp])),
      List.map_cons, hq, Except.map, List.nil_append]

theorem resolvePackage_no_ppa (w : LPWorld) (series arch : String) (ppas : List String)
    (name0 : String) (hppa : ∀ p ∈ ppas, ppaWf p)
    (hemp : ∀ q : BinQuery, q.target ≠ ArchiveTarget.main → w.getPublishedBinaries q = .ok []) :
    (resolvePackage w series arch ppas name0).2 = (resolvePackage w series arch [] name0).2 := by
  unfold resolvePackage
  rw [ppaCandidates_empty w series arch _ hemp ppas hppa]
  simp only [ppaCandidates]
  rcases hP : pocketCandidates w series arch (normalizeName arch name0) ARCHIVE_POCKETS
    with ⟨ev2, r2⟩
  cases r2 with
  | error e => simp
  | ok mainVs => cases hmv : maxVersion mainVs <;> simp [hmv]

theorem get_archive_versions_no_ppa (w : LPWorld) (series arch : String) (ppas : List String)
    (hppa : ∀ p ∈ ppas, ppaWf p)
    (hemp : ∀ q : BinQuery, q.target ≠ ArchiveTarget.main → w.getPublishedBinaries q = .ok []) :
    ∀ names : List String,
    (get_archive_versions w series names arch ppas).2 =
      (get_archive_versions w series names arch []).2 := by
  intro names
  induction names with
  | nil => rfl
  | cons n rest ih =>
    have hres := resolvePackage_no_ppa w series arch ppas n hppa hemp
    rcases h1 : resolvePackage w series arch ppas n with ⟨ev1, r1⟩
    rcases h2 : resolvePackage w series arch [] n with ⟨ev1', r1'⟩
    rw [h1, h2] at hres
    simp only at hres
    rcases h3 : get_archive_versions w series rest arch ppas with ⟨ev2, r2⟩
    rcases h4 : get_archive_versions w series rest arch [] with ⟨ev2', r2'⟩
    have hres2 : r2 = r2' := by
      have := ih
      rw [h3, h4] at this
      exact this
    simp only [get_archive_versions, h1, h2, h3, h4, ← hres, ← hres2]
    cases r1 with
    | error e => simp
    | ok p => simp

/-! ## One resolved pair per input name, carrying the normalized name -/

theorem resolvePackage_ok_name (w : LPWorld) (series arch : String) (ppas : List String)
    (n : String) : ∀ ev p, resolvePackage w series arch ppas n = (ev, .ok p) →
    p.1 = normalizeName arch n := by
  intro ev p h
  unfold resolvePackage at h
  split at h
  · simp at h
  · split at h
    · simp at h
    · split at h
      · simp at h
      · simp only [Prod.mk.injEq, Except.ok.injEq] at h
        rw [← h.2]

theorem archive_names_of_ok (w : LPWorld) (series arch : String) (ppas : List String) :
    ∀ (names : List String) (l : List (String × String)),
    (get_archive_versions w series names arch ppas).2 = .ok l →
    l.map Prod.fst = names.map (normalizeName arch) := by
  intro names
  induction names with
  | nil =>
    intro l h
    simp only [get_archive_versions] at h
    injection h with h
    rw [← h]
    simp
  | cons n rest ih =>
    intro l h
    unfold get_archive_versions at h
    split at h
    · simp at h
    · rename_i ev1 p heq
      split at h
      rename_i ev2 r2 heq2
      cases r2 with
      | error e => simp [Except.map] at h
      | ok t =>
        simp only [Except.map, Except.ok.injEq] at h
        have hn : p.1 = normalizeName arch n := resolvePackage_ok_name w series arch ppas n ev1 p heq
        have ht : t.map Prod.fst = rest.map (normalizeName arch) := by
          apply ih
          rw [heq2]
        rw [← h]
        simp [hn, ht]

/-! ## Shapes of the event traces -/

theorem ppaCandidates_trace (w : LPWorld) (series arch binName : String) :
    ∀ (ppas : List String) (e : Event), e ∈ (ppaCandidates w series arch binName ppas).1 →
    ∃ q, e = Event.binQuery q := by
  intro ppas
  induction ppas with
  | nil => intro e he; simp [ppaCandidates] at he
  | cons ppa rest ih =>
    intro e he
    simp only [ppaCandidates] at he
    split at he
    · split at he
      · simp at he
        exact ⟨_, he⟩
      · simp at he
        rcases he with he | he
        · exact ⟨_, he⟩
        · exact ih e he
    · simp at he

theorem pocketCandidates_trace (w : LPWorld) (series arch binName : String) :
    ∀ (pockets : List String) (e : Event), e ∈ (pocketCandidates w series arch binName pockets).1 →
    ∃ q, e = Event.binQuery q := by
  intro pockets
  induction pockets with
  | nil => intro e he; simp [pocketCandidates] at he
  | cons pk rest ih =>
    intro e he
    simp only [pocketCandidates] at he
    split at he
    · simp at he
      exact ⟨_, he⟩
    · simp at he
      rcases he with he | he
      · exact ⟨_, he⟩
      · exact ih e he

theorem resolvePackage_trace (w : LPWorld) (series arch : String) (ppas : List String)
    (n : String) : ∀ e ∈ (resolvePackage w series arch ppas n).1, ∃ q, e = Event.binQuery q := by
  intro e he
  unfold resolvePackage at he
  split at he
  · rename_i ev1 er heq
    apply ppaCandidates_trace w series arch (normalizeName arch n) ppas
    rw [heq]
    exact he
  · rename_i ev1 ppaVs heq
    split at he
    · rename_i ev2 er heq2
      simp at he
      rcases he with he | he
      · apply ppaCandidates_trace w series arch (normalizeName arch n) ppas
        rw [heq]
        exact he
      · apply pocketCandidates_trace w series arch (normalizeName arch n) ARCHIVE_POCKETS
        rw [heq2]
        exact he
    · rename_i ev2 mainVs heq2
      split at he <;>
      · simp at he
        rcases he with he | he
        · apply ppaCandidates_trace w series arch (normalizeName arch n) ppas
          rw [heq]
          exact he
        · apply pocketCandidates_trace w series arch (normalizeName arch n) ARCHIVE_POCKETS
          rw [heq2]
          exact he

theorem get_archive_versions_trace (w : LPWorld) (series arch : String) (ppas : List String) :
    ∀ (names : List String) (e : Event), e ∈ (get_archive_versions w series names arch ppas).1 →
    ∃ q, e = Event.binQuery q := by
  intro names
  induction names with
  | nil => intro e he; simp [get_archive_versions] at he
  | cons n rest ih =>
    intro e he
    unfold get_archive_versions at he
    split at he
    · rename_i ev1 er heq
      apply resolvePackage_trace w series arch ppas n
      rw [heq]
      exact he
    · rename_i ev1 p heq
      split at he
      rename_i ev2 r2 heq2
      simp at he
      rcases he with he | he
      · apply resolvePackage_trace w series arch ppas n
        rw [heq]
        exact he
      · apply ih
        rw [heq2]
        exact he

theorem snapstore_trace (sw : SnapWorld) (arch : String) :
    ∀ (refs : List (String × String)) (e : Event),
    e ∈ (_get_snapstore_versions sw refs arch).1 → ∃ a b c, e = Event.snapRefresh a b c := by
  intro refs
  induction refs with
  | nil => intro e he; simp [_get_snapstore_versions] at he
  | cons hd tl ih =>
    rcases hd with ⟨n2, c2⟩
    intro e he
    simp only [_get_snapstore_versions] at he
    split at he
    · split at he
      · simp at he
        exact ⟨_, _, _, he⟩
      · simp at he
        rcases he with he | he
        · exact ⟨_, _, _, he⟩
        · exact ih e he
    · simp at he
      rcases he with he | he
      · exact ⟨_, _, _, he⟩
      · exact ih e he

/-! ## Skipping a failed snap lookup -/

theorem snap_skip (sw : SnapWorld) (arch name channel : String)
    (h : (sw.refresh name channel arch).ok = false) :
    ∀ pre post : List (String × String),
    (_get_snapstore_versions sw (pre ++ (name, channel) :: post) arch).2 =
      (_get_snapstore_versions sw (pre ++ post) arch).2 := by
  intro pre
  induction pre with
  | nil =>
    intro post
    simp only [List.nil_append, _get_snapstore_versions, h]
    simp
  | cons hd tl ih =>
    intro post
    rcases hd with ⟨n2, c2⟩
    simp only [List.cons_append, _get_snapstore_versions]
    by_cases h2 : (sw.refresh n2 c2 arch).ok = true
    · simp only [h2, if_true]
      cases hres : (sw.refresh n2 c2 arch).results with
      | nil => simp
      | cons r rs =>
        simp only []
        have := ih post
        simp [this]
    · simp only [h2]
      simp [ih post]

/-! ## The writer runs last and only after success -/

theorem runPipeline_no_write_of_error (w : LPWorld) (sw : SnapWorld)
    (series arch : String) (ppas : List String) (lines : List String) (er : RunError)
    (herr : (runPipeline w sw series arch ppas lines).2 = .error er) :
    ∀ c, Event.fileWrite c ∉ (runPipeline w sw series arch ppas lines).1 := by
  intro c hmem
  cases heqp : parseManifest lines with
  | error e =>
    have hval : runPipeline w sw series arch ppas lines = ([], .error e) := by
      simp only [runPipeline, heqp]
    rw [hval] at hmem
    simp at hmem
  | ok p =>
    rcases p with ⟨bins, snaps⟩
    rcases heq1 : get_archive_versions w series bins arch ppas with ⟨ev1, r1⟩
    cases r1 with
    | error e1 =>
      have hval : runPipeline w sw series arch ppas lines = (ev1, .error e1) := by
        simp only [runPipeline, heqp, heq1]
      rw [hval] at hmem
      have hm1 : Event.fileWrite c ∈ (get_archive_versions w series bins arch ppas).1 := by
        rw [heq1]; exact hmem
      obtain ⟨q, hq⟩ := get_archive_versions_trace w series arch ppas bins (Event.fileWrite c) hm1
      exact Event.noConfusion hq
    | ok mav =>
      rcases heq2 : _get_snapstore_versions sw snaps arch with ⟨ev2, r2⟩
      cases r2 with
      | error e2 =>
        have hval : runPipeline w sw series arch ppas lines = (ev1 ++ ev2, .error e2) := by
          simp only [runPipeline, heqp, heq1, heq2]
        rw [hval] at hmem
        simp only [List.mem_append] at hmem
        rcases hmem with hmem | hmem
        · have hm1 : Event.fileWrite c ∈ (get_archive_versions w series bins arch ppas).1 := by
            rw [heq1]; exact hmem
          obtain ⟨q, hq⟩ :=
            get_archive_versions_trace w series arch ppas bins (Event.fileWrite c) hm1
          exact Event.noConfusion hq
        · have hm2 : Event.fileWrite c ∈ (_get_snapstore_versions sw snaps arch).1 := by
            rw [heq2]; exact hmem
          obtain ⟨a, b, c2, hq⟩ := snapstore_trace sw arch snaps (Event.fileWrite c) hm2
          exact Event.noConfusion hq
      | ok msv =>
        have hval : runPipeline w sw series arch ppas lines =
            (ev1 ++ ev2 ++ [.fileWrite (writeArchiveManifest mav msv)],
             .ok (writeArchiveManifest mav msv)) := by
          simp only [runPipeline, heqp, heq1, heq2]
        rw [hval] at herr
        simp at herr

theorem runPipeline_ok_write (w : LPWorld) (sw : SnapWorld)
    (series arch : String) (ppas : List String) (lines : List String) (out : String)
    (hok : (runPipeline w sw series arch ppas lines).2 = .ok out) :
    ∃ pre, (runPipeline w sw series arch ppas lines).1 = pre ++ [Event.fileWrite out] ∧
      ∀ c, Event.fileWrite c ∉ pre := by
  cases heqp : parseManifest lines with
  | error e =>
    have hval : runPipeline w sw series arch ppas lines = ([], .error e) := by
      simp only [runPipeline, heqp]
    rw [hval] at hok
    simp at hok
  | ok p =>
    rcases p with ⟨bins, snaps⟩
    rcases heq1 : get_archive_versions w series bins arch ppas with ⟨ev1, r1⟩
    cases r1 with
    | error e1 =>
      have hval : runPipeline w sw series arch ppas lines = (ev1, .error e1) := by
        simp only [runPipeline, heqp, heq1]
      rw [hval] at hok
      simp at hok
    | ok mav =>
      rcases heq2 : _get_snapstore_versions sw snaps arch with ⟨ev2, r2⟩
      cases r2 with
      | error e2 =>
        have hval : runPipeline w sw series arch ppas lines = (ev1 ++ ev2, .error e2) := by
          simp only [runPipeline, heqp, heq1, heq2]
        rw [hval] at hok
        simp at hok
      | ok msv =>
        have hval : runPipeline w sw series arch ppas lines =
            (ev1 ++ ev2 ++ [.fileWrite (writeArchiveManifest mav msv)],
             .ok (writeArchiveManifest mav msv)) := by
          simp only [runPipeline, heqp, heq1, heq2]
        rw [hval] at hok ⊢
        simp only [Except.ok.injEq] at hok
        refine ⟨ev1 ++ ev2, by rw [hok], ?_⟩
        intro c hmem
        simp only [List.mem_append] at hmem
        rcases hmem with hmem | hmem
        · have hm1 : Event.fileWrite c ∈ (get_archive_versions w series bins arch ppas).1 := by
            rw [heq1]; exact hmem
          obtain ⟨q, hq⟩ :=
            get_archive_versions_trace w series arch ppas bins (Event.fileWrite c) hm1
          exact Event.noConfusion hq
        · have hm2 : Event.fileWrite c ∈ (_get_snapstore_versions sw snaps arch).1 := by
            rw [heq2]; exact hmem
          obtain ⟨a, b, c2, hq⟩ := snapstore_trace sw arch snaps (Event.fileWrite c) hm2
          exact Event.noConfusion hq

/-! ## Serialization of the output manifest -/

theorem string_append_assoc (a b c : String) : (a ++ b) ++ c = a ++ (b ++ c) := by
  cases a with
  | mk x =>
    cases b with
    | mk y =>
      cases c with
      | mk z =>
        show String.mk ((x ++ y) ++ z) = String.mk (x ++ (y ++ z))
        rw [List.append_assoc]

theorem string_append_empty (s : String) : s ++ "" = s := by
  cases s with
  | mk x =>
    show String.mk (x ++ []) = String.mk x
    rw [List.append_nil]

theorem string_empty_append (s : String) : "" ++ s = s := by
  cases s with
  | mk x =>
    show String.mk ([] ++ x) = String.mk x
    rw [List.nil_append]

theorem foldl_append_concat {α : Type} (f : α → String) :
    ∀ (l : List α) (s : String),
    l.foldl (fun acc x => acc ++ f x) s = s ++ concatAll (l.map f) := by
  intro l
  induction l with
  | nil => intro s; simp only [List.foldl_nil, List.map_nil, concatAll, string_append_empty]
  | cons x xs ih =>
    intro s
    simp only [List.foldl_cons, List.map_cons, concatAll]
    rw [ih, string_append_assoc]

theorem writeArchiveManifest_eq (bins : List (String × String))
    (snaps : List (String × String × Int)) :
    writeArchiveManifest bins snaps =
      concatAll (bins.map fmtBinaryLine) ++ concatAll (snaps.map fmtSnapLine) := by
  unfold writeArchiveManifest
  have h1 : (fun (acc : String) (p : String × String) => acc ++ p.1 ++ "\t" ++ p.2 ++ "\n")
      = fun acc p => acc ++ fmtBinaryLine p := by
    funext acc p
    unfold fmtBinaryLine
    simp only [string_append_assoc]
  have h2 : (fun (acc : String) (p : String × String × Int) =>
        acc ++ "snap:" ++ p.1 ++ "\t" ++ p.2.1 ++ "\t" ++ toString p.2.2 ++ "\n")
      = fun acc p => acc ++ fmtSnapLine p := by
    funext acc p
    unfold fmtSnapLine
    simp only [string_append_assoc]
  rw [h1, h2, foldl_append_concat, foldl_append_concat, string_empty_append]

/-! ## The manifest parser against its per-line specification -/

theorem parseManifest_eq_spec : ∀ lines : List String,
    parseManifest lines = (parseEntries lines).map entriesToLists := by
  intro lines
  induction lines with
  | nil => rfl
  | cons line rest ih =>
    simp only [parseManifest, parseEntries, parseLineSpec]
    by_cases hc : containsSub "snap:".data line.data = true
    · rw [if_pos hc, if_pos hc]
      cases hsp : pySplit line with
      | nil => rfl
      | cons a t1 =>
        cases t1 with
        | nil => rfl
        | cons b t2 =>
          cases t2 with
          | nil => rfl
          | cons v t3 =>
            cases t3 with
            | nil =>
              simp only [ih]
              cases hR : parseEntries rest with
              | error e => rfl
              | ok es => simp [entriesToLists, Except.map]
            | cons d t4 => rfl
    · rw [if_neg hc, if_neg hc]
      cases hsp : pySplit line with
      | nil => rfl
      | cons a t1 =>
        cases t1 with
        | nil => rfl
        | cons b t2 =>
          cases t2 with
          | nil =>
            simp only [ih]
            cases hR : parseEntries rest with
            | error e => rfl
            | ok es => simp [entriesToLists, Except.map]
          | cons v t3 => rfl

/-! ## Claim theorems -/

/-- C1 counterexample: on the non-empty candidate multiset consisting only of
"0.0.0~rc1", whose unique maximum under Debian ordering is "0.0.0~rc1"
itself, the resolver emits the sentinel "0.0.0" instead, because the fold
starts at the sentinel and "0.0.0~rc1" compares strictly below it. -/
theorem C1_counterexample :
    maxVersion ["0.0.0~rc1"] = some "0.0.0" ∧
    version_compare "0.0.0~rc1" "0.0.0" = some (-1) ∧
    ("0.0.0" : String) ≠ "0.0.0~rc1" := by
  refine ⟨by decide, by decide, by decide⟩

/-- C1 amended: for every list of (parseable) candidate version strings the
emitted max_version is a Debian maximum of the candidates extended with the
sentinel "0.0.0": the fold succeeds, its result is the sentinel or one of
the candidates, every candidate compares less or equal to it, and for the
empty candidate list it is exactly "0.0.0". -/
theorem C1_amended (l : List String) (hl : ∀ v ∈ l, validVer v) :
    ∃ m, maxVersion l = some m ∧ (m = "0.0.0" ∨ m ∈ l) ∧
      (∀ v ∈ l, ∃ c, version_compare v m = some c ∧ c ≤ 0) ∧
      (l = [] → m = "0.0.0") := by
  obtain ⟨m, hm, hmem, _, hall⟩ := maxVersion_spec l hl
  refine ⟨m, hm, hmem, fun v hv => hall v hv, fun hnil => ?_⟩
  subst hnil
  rcases hmem with h | h
  · exact h
  · simp at h

/-- C1 amended witness at a concrete two-candidate list. -/
theorem C1_amended_witness :
    ∃ m, maxVersion ["5.1-6ubuntu1", "5.0-6"] = some m ∧
      (m = "0.0.0" ∨ m ∈ ["5.1-6ubuntu1", "5.0-6"]) ∧
      (∀ v ∈ ["5.1-6ubuntu1", "5.0-6"], ∃ c, version_compare v m = some c ∧ c ≤ 0) ∧
      (["5.1-6ubuntu1", "5.0-6"] = ([] : List String) → m = "0.0.0") :=
  C1_amended ["5.1-6ubuntu1", "5.0-6"] (by decide)

/-- C2 counterexample: the parse loop removes every occurrence of "snap:"
from the first field rather than stripping one prefix: the line
"snap:snap:foo stable 1" is parsed into the snap name "foo", while the
specified prefix-stripping would give "snap:foo". -/
theorem C2_counterexample :
    parseManifest ["snap:snap:foo stable 1"] = .ok ([], [("foo", "stable")]) ∧
    specStripSnapPrefix "snap:snap:foo" = "snap:foo" ∧
    ("foo" : String) ≠ "snap:foo" := by
  refine ⟨rfl, by decide, by decide⟩

/-- C2 amended: each manifest line containing "snap:" is split on whitespace
into exactly three fields and yields a snap reference whose name has every
occurrence of "snap:" removed; any other line is split into exactly two
fields and yields a binary reference; a wrong field count is a FormatError,
and a manifest on which parsing fails makes the run terminate with that
error before any remote call (its event trace is empty). -/
theorem C2_amended (lines : List String) :
    parseManifest lines = (parseEntries lines).map entriesToLists ∧
    ∀ (w : LPWorld) (sw : SnapWorld) (series arch : String) (ppas : List String)
      (e : RunError), parseManifest lines = .error e →
      runPipeline w sw series arch ppas lines = ([], .error e) := by
  refine ⟨parseManifest_eq_spec lines, ?_⟩
  intro w sw series arch ppas e he
  simp only [runPipeline, he]

/-- C2 amended witness: a snap line with a missing field is a FormatError
and the run makes no remote call and writes nothing. -/
theorem C2_amended_witness :
    parseManifest ["snap:core20 stable"] = .error RunError.formatError ∧
    runPipeline wOkEmpty swRev "focal" "amd64" [] ["snap:core20 stable"] =
      ([], .error RunError.formatError) :=
  ⟨rfl, (C2_amended ["snap:core20 stable"]).2 wOkEmpty swRev "focal" "amd64" []
    RunError.formatError rfl⟩

/-- C3 counterexample: a supplementary-repository query that raises is fatal:
with a world whose PPA queries raise, resolution of the package stops at the
first PPA query (the trace contains only that query, no main-archive pocket
is consulted) and the whole resolution returns the error instead of a
resolved pair. -/
theorem C3_counterexample :
    get_archive_versions wPpaErr "focal" ["pkg"] "amd64" ["owner/testppa"] =
      ([Event.binQuery (ppaQueryOf "focal" "amd64" "pkg" "owner/testppa")],
       .error (RunError.lpError "503 Service Unavailable")) := rfl

/-- C3 amended: a supplementary-repository query that returns zero results is
not fatal and merely contributes no candidate versions: on a world whose
PPA queries all succeed with an empty result list, resolution returns
exactly what it returns with no supplementary repositories at all (an
erroring PPA query, by contrast, aborts the run). -/
theorem C3_amended (w : LPWorld) (series arch : String) (names ppas : List String)
    (hppa : ∀ p ∈ ppas, ppaWf p)
    (hempty : ∀ q : BinQuery, q.target ≠ ArchiveTarget.main →
      w.getPublishedBinaries q = .ok []) :
    (get_archive_versions w series names arch ppas).2 =
      (get_archive_versions w series names arch []).2 :=
  get_archive_versions_no_ppa w series arch ppas hppa hempty names

/-- C3 amended witness with one empty PPA and a main archive publishing
version 1.0-1. -/
theorem C3_amended_witness :
    (get_archive_versions wMain10 "focal" ["pkg"] "amd64" ["owner/emptyppa"]).2 =
      (get_archive_versions wMain10 "focal" ["pkg"] "amd64" []).2 :=
  C3_amended wMain10 "focal" "amd64" ["pkg"] ["owner/emptyppa"]
    (by
      intro p hp
      simp only [List.mem_singleton] at hp
      subst hp
      exact ⟨"owner", "emptyppa", rfl⟩)
    (by
      intro q hq
      rcases q with ⟨t, e1, e2, e3, e4, e5, e6, e7⟩
      cases t with
      | main => exact absurd rfl hq
      | ppa o n => rfl)

/-- C4: a run whose result is an error writes nothing (no fileWrite event is
in its trace), and a successful run performs exactly one fileWrite, of the
full output, as its last event, after all resolver queries: the writer is
invoked only after both resolvers have fully completed and no partial
output ever appears. -/
theorem C4_no_partial_output (w : LPWorld) (sw : SnapWorld) (series arch : String)
    (ppas lines : List String) :
    (∀ er, (runPipeline w sw series arch ppas lines).2 = .error er →
      ∀ c, Event.fileWrite c ∉ (runPipeline w sw series arch ppas lines).1) ∧
    (∀ out, (runPipeline w sw series arch ppas lines).2 = .ok out →
      ∃ pre, (runPipeline w sw series arch ppas lines).1 = pre ++ [Event.fileWrite out] ∧
        ∀ c, Event.fileWrite c ∉ pre) :=
  ⟨fun er herr => runPipeline_no_write_of_error w sw series arch ppas lines er herr,
   fun out hok => runPipeline_ok_write w sw series arch ppas lines out hok⟩

/-- C4 witness: a run aborted by a raising PPA query has no write event, and
a successful run ends in exactly the write of its output. -/
theorem C4_witness :
    (runPipeline wPpaErr swRev "focal" "amd64" ["owner/testppa"] ["bash 5.0-6"]).2 =
      .error (RunError.lpError "503 Service Unavailable") ∧
    Event.fileWrite "x" ∉
      (runPipeline wPpaErr swRev "focal" "amd64" ["owner/testppa"] ["bash 5.0-6"]).1 ∧
    (runPipeline wMain10 swRev "focal" "amd64" [] ["bash 5.0-6"]).2 = .ok "bash\t1.0-1\n" ∧
    (∃ pre, (runPipeline wMain10 swRev "focal" "amd64" [] ["bash 5.0-6"]).1 =
      pre ++ [Event.fileWrite "bash\t1.0-1\n"] ∧ ∀ c, Event.fileWrite c ∉ pre) :=
  ⟨rfl,
   (C4_no_partial_output wPpaErr swRev "focal" "amd64" ["owner/testppa"] ["bash 5.0-6"]).1
     (RunError.lpError "503 Service Unavailable") rfl "x",
   rfl,
   (C4_no_partial_output wMain10 swRev "focal" "amd64" [] ["bash 5.0-6"]).2
     "bash\t1.0-1\n" rfl⟩

/-- C5: a snap whose refresh response is not a success is skipped: the
resolved list is the same as if the reference were absent, so a failing
lookup never prevents a later snap from being resolved and included. -/
theorem C5_failed_snap_skipped (sw : SnapWorld) (arch name channel : String)
    (pre post : List (String × String))
    (h : (sw.refresh name channel arch).ok = false) :
    (_get_snapstore_versions sw (pre ++ (name, channel) :: post) arch).2 =
      (_get_snapstore_versions sw (pre ++ post) arch).2 :=
  snap_skip sw arch name channel h pre post

/-- C5 witness: with a store failing for snap aaa and succeeding for
core20, the failing snap is dropped and the later one is still resolved. -/
theorem C5_failed_snap_skipped_witness :
    (_get_snapstore_versions swMix ([] ++ ("aaa", "stable") :: [("core20", "stable")])
        "amd64").2 =
      (_get_snapstore_versions swMix ([] ++ [("core20", "stable")]) "amd64").2 ∧
    (_get_snapstore_versions swMix [("aaa", "stable"), ("core20", "stable")] "amd64").2 =
      .ok [("core20", "stable", 1234)] :=
  ⟨C5_failed_snap_skipped swMix "amd64" "aaa" "stable" [] [("core20", "stable")] rfl, rfl⟩

/-- C6: the writer serializes exactly one line per resolved binary (name,
tab, max version, newline) followed by one line per resolved snap (snap:
prefix, name, tab, channel, tab, revision, newline), preserving the order
of both lists, with the concrete rendering of the examples from the
specification. -/
theorem C6_writer_format (bins : List (String × String))
    (snaps : List (String × String × Int)) :
    writeArchiveManifest bins snaps =
      concatAll (bins.map fmtBinaryLine) ++ concatAll (snaps.map fmtSnapLine) ∧
    fmtBinaryLine ("bash", "5.1-6ubuntu1") = "bash\t5.1-6ubuntu1\n" ∧
    fmtSnapLine ("core20", "stable", 1234) = "snap:core20\tstable\t1234\n" ∧
    writeArchiveManifest [("bash", "5.1-6ubuntu1")] [("core20", "stable", 1234)] =
      "bash\t5.1-6ubuntu1\nsnap:core20\tstable\t1234\n" :=
  ⟨writeArchiveManifest_eq bins snaps, rfl, rfl, rfl⟩

/-- C7 counterexample: the resolver does not strip only a trailing
colon-architecture suffix: the name foo:amd64bar has no such trailing
suffix (the specified normalization leaves it unchanged), yet the resolver
removes the inner occurrence and resolves the name foobar. -/
theorem C7_counterexample :
    (get_archive_versions wOkEmpty "focal" ["foo:amd64bar"] "amd64" []).2 =
      .ok [("foobar", "0.0.0")] ∧
    specStripArchSuffix "amd64" "foo:amd64bar" = "foo:amd64bar" ∧
    ("foobar" : String) ≠ "foo:amd64bar" := by
  refine ⟨rfl, by decide, by decide⟩

/-- C7 amended: the resolver removes every occurrence of the
colon-architecture substring from the package name before querying; in
particular a name carrying the trailing suffix resolves identically (same
queries, same result) to the bare name, since appending ":amd64" does not
change the normalized name. -/
theorem C7_amended (w : LPWorld) (series : String) (ppas : List String) (n : String)
    (rest : List String) :
    get_archive_versions w series ((n ++ ":amd64") :: rest) "amd64" ppas =
      get_archive_versions w series (n :: rest) "amd64" ppas ∧
    normalizeName "amd64" (n ++ ":amd64") = normalizeName "amd64" n := by
  have hn := normalizeName_append_amd64 n
  have hr : resolvePackage w series "amd64" ppas (n ++ ":amd64") =
      resolvePackage w series "amd64" ppas n := by
    unfold resolvePackage
    rw [hn]
  refine ⟨?_, hn⟩
  simp only [get_archive_versions, hr]

/-- C8: on a world whose every query succeeds, the resolver's query plan per
manifest name is exactly: each supplementary repository in caller-given
order, queried with exact match under pocket "Release" and status
"Published" ordered by date, then the main archive once per pocket in the
fixed order Updates, Security, Release with the same fixed parameters; the
candidate list is the concatenation of all answers in that order and the
emitted pair carries its max-version reduction. -/
theorem C8_query_plan (w : LPWorld) (f : BinQuery → List String)
    (hw : ∀ q, w.getPublishedBinaries q = .ok (f q)) (series arch : String)
    (ppas : List String) (hppa : ∀ p ∈ ppas, ppaWf p)
    (hval : ∀ q, ∀ v ∈ f q, validVer v) (names : List String) :
    get_archive_versions w series names arch ppas =
      (names.flatMap fun n0 => (packagePlan series arch ppas n0).map Event.binQuery,
       .ok (names.map fun n0 => (normalizeName arch n0,
            (maxVersion (packageCandidates f series arch ppas n0)).getD "0.0.0"))) :=
  get_archive_versions_ok w f hw series arch ppas hppa hval names

/-- C8 witness at a concrete world answering every query with 1.0-1. -/
theorem C8_query_plan_witness :
    get_archive_versions wAll10 "focal" ["pkg"] "amd64" ["owner/testppa"] =
      (["pkg"].flatMap fun n0 =>
        (packagePlan "focal" "amd64" ["owner/testppa"] n0).map Event.binQuery,
       .ok (["pkg"].map fun n0 => (normalizeName "amd64" n0,
            (maxVersion (packageCandidates (fun _ => ["1.0-1"]) "focal" "amd64"
              ["owner/testppa"] n0)).getD "0.0.0"))) :=
  C8_query_plan wAll10 (fun _ => ["1.0-1"]) (fun _ => rfl) "focal" "amd64"
    ["owner/testppa"]
    (by
      intro p hp
      simp only [List.mem_singleton] at hp
      subst hp
      exact ⟨"owner", "testppa", rfl⟩)
    (by
      intro q v hv
      simp only [List.mem_singleton] at hv
      subst hv
      decide)
    ["pkg"]

/-- C9: a snap whose refresh response is a success with an empty results
list makes the resolver raise at the indexing of the first result, aborting
the run; a run that terminates with this error has no write event in its
trace, so it aborts before any output is written (unlike a non-success
response, which is skipped per item). -/
theorem C9_empty_results_fatal (sw : SnapWorld) (arch name channel : String)
    (rest : List (String × String))
    (h1 : (sw.refresh name channel arch).ok = true)
    (h2 : (sw.refresh name channel arch).results = []) :
    _get_snapstore_versions sw ((name, channel) :: rest) arch =
      ([Event.snapRefresh name channel arch], .error RunError.snapIndexError) ∧
    ∀ (w : LPWorld) (series : String) (ppas lines : List String),
      (runPipeline w sw series arch ppas lines).2 = .error RunError.snapIndexError →
      ∀ c, Event.fileWrite c ∉ (runPipeline w sw series arch ppas lines).1 := by
  constructor
  · simp only [_get_snapstore_versions, h1, h2, if_true]
  · intro w series ppas lines herr
    exact runPipeline_no_write_of_error w sw series arch ppas lines _ herr

/-- C9 witness: an ok response with empty results for core20 aborts the
whole run on the example manifest, with no file written. -/
theorem C9_empty_results_fatal_witness :
    _get_snapstore_versions swOkEmpty [("core20", "stable")] "amd64" =
      ([Event.snapRefresh "core20" "stable" "amd64"], .error RunError.snapIndexError) ∧
    (runPipeline wOkEmpty swOkEmpty "focal" "amd64" [] ["snap:core20 stable 1100"]).2 =
      .error RunError.snapIndexError ∧
    Event.fileWrite "x" ∉
      (runPipeline wOkEmpty swOkEmpty "focal" "amd64" [] ["snap:core20 stable 1100"]).1 :=
  ⟨(C9_empty_results_fatal swOkEmpty "amd64" "core20" "stable" [] rfl rfl).1, rfl,
   (C9_empty_results_fatal swOkEmpty "amd64" "core20" "stable" [] rfl rfl).2
     wOkEmpty "focal" [] ["snap:core20 stable 1100"] rfl "x"⟩

/-- C10: whenever the archive resolver returns successfully it returns
exactly one (name, max_version) pair per input name, in input order,
regardless of whether any versions were found, and the recorded name is the
normalized architecture-stripped name, not the original manifest token. -/
theorem C10_one_pair_per_name (w : LPWorld) (series arch : String)
    (ppas names : List String) (l : List (String × String))
    (h : (get_archive_versions w series names arch ppas).2 = .ok l) :
    l.map Prod.fst = names.map (normalizeName arch) :=
  archive_names_of_ok w series arch ppas names l h

/-- C10 witness: two names, one architecture-qualified, resolve to exactly
two pairs carrying the normalized names in input order. -/
theorem C10_one_pair_per_name_witness :
    (get_archive_versions wOkEmpty "focal" ["bash:amd64", "vim"] "amd64" []).2 =
      .ok [("bash", "0.0.0"), ("vim", "0.0.0")] ∧
    ([("bash", "0.0.0"), ("vim", "0.0.0")].map Prod.fst =
      ["bash:amd64", "vim"].map (normalizeName "amd64")) :=
  ⟨rfl, C10_one_pair_per_name wOkEmpty "focal" "amd64" [] ["bash:amd64", "vim"]
    [("bash", "0.0.0"), ("vim", "0.0.0")] rfl⟩
